import Mathlib

/-!
Verification of the SAFECode runtime memory-safety engine.

This file gives a shallow embedding, in Lean 4, of the parts of the runtime
that the specification's claims are about:

* the SoftBound/CETS trie metadata store and temporal checks
  (runtime/SoftBoundRuntime/softboundcets.h);
* the out-of-bounds pointer rewriter and the bounds-check decision engine
  (runtime/SafePoolAllocator/PoolAllocatorBitMask.cpp);
* the live-object registry and the pool allocation interface
  (poolalloc / poolfree / poolrealloc in the same file);
* the PoolSlab bitmask bookkeeping (allocateSingle, allocateMultiple,
  freeElement).

Pointers are modelled as natural numbers (addresses); machine-word overflow is
irrelevant to the properties proved here and is noted where it would matter.
Code guarded by configuration macros is embedded in the configuration the
specification describes (SC_ENABLE_OOB on, SC_DEBUGTOOL provenance fields
elided from reports, __SOFTBOUNDCETS_SPATIAL_TEMPORAL for the trie).
Functions whose C implementation aborts on an internal failure return an
`Option`, with `none` for the abort.

The adl_splay tree implementation is not part of the sources (only its
callers are); it is modelled from the specification of the Object Registry
as a list of ranges with containment lookup, keyed insertion and deletion.
-/

namespace SoftBound

/-- Entry of the two-level trie, the __SOFTBOUNDCETS_SPATIAL_TEMPORAL build of
`__softboundcets_trie_entry_t`: spatial base/bound and temporal key/lock. -/
structure TrieEntry where
  base : Nat
  bound : Nat
  key : Nat
  lock : Nat
deriving DecidableEq, Repr

/-- Metadata of a never-written slot: secondary tables come from anonymous
zero-filled mmap (`__softboundcets_trie_allocate`), so all fields read 0. -/
def zeroEntry : TrieEntry := ⟨0, 0, 0, 0⟩

/-- State of `__softboundcets_trie_primary_table`: the primary table maps a
primary index to an optional (lazily allocated) secondary table, itself a
total map from secondary index to entry (fresh tables are all-zero). -/
structure Trie where
  primary : Nat → Option (Nat → TrieEntry)

/-- Initial state: no secondary table has been allocated. -/
def emptyTrie : Trie := ⟨fun _ => none⟩

/-- Primary trie index of a pointer-slot address: `ptr >> 25`. -/
def primaryIndex (addr : Nat) : Nat := addr >>> 25

/-- Secondary trie index of a pointer-slot address: `(ptr >> 3) & 0x3fffff`. -/
def secondaryIndex (addr : Nat) : Nat := (addr >>> 3) &&& 0x3fffff

/-- Embedding of `__softboundcets_metadata_store` (softboundcets.h:697-782,
SPATIAL_TEMPORAL build): locate the secondary table through the primary
index, allocating a zeroed one if absent, and overwrite the entry at the
secondary index with the four metadata fields. -/
def metadata_store (t : Trie) (addr b bd k l : Nat) : Trie :=
  let pidx := primaryIndex addr
  let sec : Nat → TrieEntry :=
    match t.primary pidx with
    | none => fun _ => zeroEntry
    | some s => s
  let sidx := secondaryIndex addr
  ⟨fun j =>
    if j = pidx then some (fun i => if i = sidx then ⟨b, bd, k, l⟩ else sec i)
    else t.primary j⟩

/-- Embedding of `__softboundcets_metadata_load` (softboundcets.h:784-882,
SPATIAL_TEMPORAL build): if the secondary table for the primary index is
unallocated, all four metadata fields read as zero; otherwise read the entry
at the secondary index. -/
def metadata_load (t : Trie) (addr : Nat) : TrieEntry :=
  match t.primary (primaryIndex addr) with
  | none => zeroEntry
  | some s => s (secondaryIndex addr)

/-- Argument record of one metadata store call. -/
structure StoreOp where
  addr : Nat
  base : Nat
  bound : Nat
  key : Nat
  lock : Nat
deriving DecidableEq, Repr

/-- Apply a sequence of metadata stores in order. -/
def applyStores (t : Trie) : List StoreOp → Trie
  | [] => t
  | op :: rest => applyStores (metadata_store t op.addr op.base op.bound op.key op.lock) rest

/-- Embedding of `__softboundcets_temporal_load_dereference_check`
(softboundcets.h:889-926).  Returns `true` when the check aborts with a
temporal violation: the captured lock pointer is null, or the key currently
stored in the lock cell differs from the captured key.  Lock-cell memory is
`mem`, a map from lock address to the key stored there. -/
def temporal_load_dereference_check (mem : Nat → Nat) (pointer_lock key : Nat) : Bool :=
  if pointer_lock = 0 then true
  else if mem pointer_lock ≠ key then true
  else false

/-- Embedding of `__softboundcets_temporal_store_dereference_check`
(softboundcets.h:928-961); identical decision logic to the load variant. -/
def temporal_store_dereference_check (mem : Nat → Nat) (pointer_lock key : Nat) : Bool :=
  if pointer_lock = 0 then true
  else if mem pointer_lock ≠ key then true
  else false

theorem primaryIndex_eq (a : Nat) : primaryIndex a = (a >>> 3) >>> 22 := by
  unfold primaryIndex
  rw [← Nat.shiftRight_add]

theorem secondaryIndex_eq (a : Nat) : secondaryIndex a = (a >>> 3) % 2 ^ 22 := by
  unfold secondaryIndex
  have h : (0x3fffff : Nat) = 2 ^ 22 - 1 := by norm_num
  rw [h, Nat.and_pow_two_sub_one_eq_mod]

/-- Distinct pointer slots (distinct `addr >> 3` values) occupy distinct trie
cells: the pair (primary index, secondary index) determines `addr >> 3`. -/
theorem slot_separation {a b : Nat} (h : a >>> 3 ≠ b >>> 3) :
    primaryIndex a ≠ primaryIndex b ∨ secondaryIndex a ≠ secondaryIndex b := by
  by_contra hcon
  push_neg at hcon
  obtain ⟨hp, hs⟩ := hcon
  rw [primaryIndex_eq, primaryIndex_eq, Nat.shiftRight_eq_div_pow] at hp
  rw [Nat.shiftRight_eq_div_pow] at hp
  rw [secondaryIndex_eq, secondaryIndex_eq] at hs
  apply h
  have ha := Nat.div_add_mod (a >>> 3) (2 ^ 22)
  have hb := Nat.div_add_mod (b >>> 3) (2 ^ 22)
  omega

theorem metadata_load_store_other {t : Trie} {a : Nat} (op : StoreOp)
    (h : op.addr >>> 3 ≠ a >>> 3) :
    metadata_load (metadata_store t op.addr op.base op.bound op.key op.lock) a
      = metadata_load t a := by
  unfold metadata_load metadata_store
  dsimp only
  by_cases hpe : primaryIndex a = primaryIndex op.addr
  · rcases slot_separation (Ne.symm h) with hp | hs
    · exact absurd hpe hp
    · rw [if_pos hpe, hpe]
      cases hc : t.primary (primaryIndex op.addr) with
      | none => simp [hs, zeroEntry]
      | some s => simp [hs]
  · rw [if_neg hpe]

theorem metadata_load_untouched {a : Nat} (ops : List StoreOp) (t : Trie)
    (h : ∀ op ∈ ops, op.addr >>> 3 ≠ a >>> 3)
    (hbase : metadata_load t a = zeroEntry) :
    metadata_load (applyStores t ops) a = zeroEntry := by
  induction ops generalizing t with
  | nil => exact hbase
  | cons op rest ih =>
      apply ih
      · intro o ho
        exact h o (List.mem_cons_of_mem op ho)
      · rw [metadata_load_store_other op (h op (List.mem_cons_self op rest))]
        exact hbase

/-- Claim C7: a trie metadata load from a pointer-slot address directly after
a metadata store of (base, bound, key, lock) to that address returns exactly
(base, bound, key, lock); and a load from a slot that no store in the whole
history ever wrote (all stores were to other pointer slots, i.e. other
`addr >> 3` values) returns all-zero metadata. -/
theorem metadata_store_load_roundtrip (t : Trie) (a b bd k l : Nat) (ops : List StoreOp)
    (hops : ∀ op ∈ ops, op.addr >>> 3 ≠ a >>> 3) :
    metadata_load (metadata_store t a b bd k l) a = ⟨b, bd, k, l⟩ ∧
      metadata_load (applyStores emptyTrie ops) a = zeroEntry := by
  constructor
  · unfold metadata_load metadata_store
    simp
  · exact metadata_load_untouched ops emptyTrie hops rfl

/-- Witness for C7 at concrete inputs: store at slot address 64 then load 64
returns the stored tuple, and a history of stores at slots 8 and 128 leaves
slot 64 reading all-zero. -/
theorem metadata_store_load_roundtrip_witness :
    metadata_load (metadata_store emptyTrie 64 10 20 30 40) 64 = ⟨10, 20, 30, 40⟩ ∧
      metadata_load (applyStores emptyTrie [⟨8, 1, 2, 3, 4⟩, ⟨128, 5, 6, 7, 8⟩]) 64 = zeroEntry :=
  metadata_store_load_roundtrip emptyTrie 64 10 20 30 40 [⟨8, 1, 2, 3, 4⟩, ⟨128, 5, 6, 7, 8⟩]
    (by decide)

/-- Claim C8: for a pointer carrying a captured (lock, key) pair with a valid
(non-null) lock, both temporal dereference checks abort with a temporal
violation exactly when the key currently stored in the lock cell differs
from the captured key. -/
theorem temporal_check_fails_iff (mem : Nat → Nat) (lock key : Nat) (h : lock ≠ 0) :
    (temporal_load_dereference_check mem lock key = true ↔ mem lock ≠ key) ∧
      (temporal_store_dereference_check mem lock key = true ↔ mem lock ≠ key) := by
  unfold temporal_load_dereference_check temporal_store_dereference_check
  constructor <;>
    · rw [if_neg h]
      by_cases hk : mem lock = key
      · simp [hk]
      · simp [hk]

/-- Witness for C8 at a concrete input: lock cell 3 holds key 5; a pointer
carrying key 9 fails both temporal checks. -/
theorem temporal_check_fails_iff_witness :
    temporal_load_dereference_check (fun _ => 5) 3 9 = true ∧
      temporal_store_dereference_check (fun _ => 5) 3 9 = true := by
  have h := temporal_check_fails_iff (fun _ => 5) 3 9 (by decide)
  exact ⟨h.1.mpr (by decide), h.2.mpr (by decide)⟩

end SoftBound

namespace PoolRT

/-- Entry of an object registry (a splay-tree node): a range starting at
`base` of `len` bytes with an opaque metadata `tag` (the debug-metadata
pointer for `Pool->Objects`, the original pointer value for `Pool->OOB`). -/
structure Obj where
  base : Nat
  len : Nat
  tag : Nat
deriving DecidableEq, Repr

/-- A registry (one adl_splay tree) as the list of its entries. -/
abbrev Registry := List Obj

/-- Modelled from the spec: `adl_splay_insert` (used by poolalloc,
poolregister and rewrite_ptr; the adl_splay implementation is not among the
sources).  Spec 4.2: `insert(base, length, tag)` records the range. -/
def regInsert (r : Registry) (base len tag : Nat) : Registry :=
  ⟨base, len, tag⟩ :: r

/-- Modelled from the spec: `adl_splay_delete` (used by poolfree and
poolunregister).  Spec 4.2: `remove(base)` removes the entry keyed at
`base`. -/
def regDelete (r : Registry) (base : Nat) : Registry :=
  r.filter (fun o => !decide (o.base = base))

/-- Modelled from the spec: `adl_splay_retrieve` / `adl_splay_lookup` (used
by poolcheck, boundscheck and pchk_getActualValue).  Spec 4.2: `find(addr)`
must return the unique range containing `addr` if one exists, otherwise
report "not found". -/
def regRetrieve (r : Registry) (addr : Nat) : Option Obj :=
  r.find? (fun o => decide (o.base ≤ addr) && decide (addr < o.base + o.len))

/-- State of the OOB pointer rewriter: the reserved sentinel range
`[InvalidLower, InvalidUpper)`, the global cursor `invalidptr` (0 before the
first rewrite), and the pool's `OOB` splay tree mapping each issued sentinel
to the original out-of-bounds pointer value (stored as the entry tag). -/
structure RewriterState where
  lower : Nat
  upper : Nat
  cursor : Nat
  oob : Registry
deriving DecidableEq, Repr

/-- Result of a rewrite: the returned pointer, the updated state, and
whether the call terminated the program (`fatal`).  The source of
`rewrite_ptr` never aborts: its exhaustion path prints a diagnostic to
stderr and returns the input pointer, so `fatal` is `false` on every path. -/
structure RewriteResult where
  ret : Nat
  st : RewriterState
  fatal : Bool
deriving DecidableEq, Repr

/-- Embedding of `rewrite_ptr` (PoolAllocatorBitMask.cpp:1781-1803,
SC_ENABLE_OOB build): advance the cursor (initializing it to InvalidLower on
first use), and if it reaches InvalidUpper report exhaustion and return the
pointer unchanged; otherwise record `sentinel -> (1 byte, original pointer)`
in the OOB tree and return the sentinel. -/
def rewrite_ptr (st : RewriterState) (p : Nat) : RewriteResult :=
  let c := (if st.cursor = 0 then st.lower else st.cursor) + 1
  if c = st.upper then
    ⟨p, { st with cursor := c }, false⟩
  else
    ⟨c, { st with cursor := c, oob := regInsert st.oob c 1 p }, false⟩

/-- Value of `(unsigned)-1`, the width of the addresses involved in the
rewrite-zone test. -/
def mask32 : Nat := 4294967295

/-- Embedding of `pchk_getActualValue` (PoolAllocatorBitMask.cpp:1811-1833,
SC_ENABLE_OOB build): an address at or below InvalidLower or outside the
rewrite zone (tested with the bitmask `~(InvalidUpper - 1)`) is returned
unchanged; otherwise the OOB tree gives back the original pointer, and a
failed lookup is a fatal internal error (`none` models the abort). -/
def pchk_getActualValue (st : RewriterState) (src : Nat) : Option Nat :=
  if src ≤ st.lower then some src
  else if src &&& (mask32 ^^^ (st.upper - 1)) ≠ 0 then some src
  else
    match regRetrieve st.oob src with
    | some o => some o.tag
    | none => none

theorem land_high_mask_eq_zero {c k : Nat} (hk : k ≤ 32) (hc : c < 2 ^ k) :
    c &&& (mask32 ^^^ (2 ^ k - 1)) = 0 := by
  apply Nat.eq_of_testBit_eq
  intro i
  rw [Nat.testBit_and, Nat.testBit_xor, Nat.zero_testBit]
  have hm : mask32 = 2 ^ 32 - 1 := by norm_num [mask32]
  rw [hm, Nat.testBit_two_pow_sub_one, Nat.testBit_two_pow_sub_one]
  by_cases hik : i < k
  · have h32 : i < 32 := lt_of_lt_of_le hik hk
    simp [hik, h32]
  · have : c < 2 ^ i := lt_of_lt_of_le hc (Nat.pow_le_pow_right (by norm_num) (le_of_not_lt hik))
    rw [Nat.testBit_lt_two_pow this]
    simp

/-- Claim C5: a successful (non-exhausted) `rewrite_ptr(pool, p)` issues a
fresh sentinel `s` — an address not currently recorded as a live sentinel —
and `pchk_getActualValue(pool, s)` returns the original pointer `p`.  The
hypotheses say the sentinel range ends at a power of two (so the bitmask
rewrite-zone test of `pchk_getActualValue` coincides with a range test), the
cursor is inside the range, previously issued sentinels do not exceed the
cursor, and this rewrite does not exhaust the range. -/
theorem rewrite_ptr_roundtrip_fresh (st : RewriterState) (p k : Nat)
    (hk : k ≤ 32) (hupper : st.upper = 2 ^ k)
    (hcur : st.cursor = 0 ∨ st.lower ≤ st.cursor)
    (hlt : (if st.cursor = 0 then st.lower else st.cursor) + 1 < st.upper)
    (hkeys : ∀ o ∈ st.oob, o.base ≤ (if st.cursor = 0 then st.lower else st.cursor)) :
    pchk_getActualValue (rewrite_ptr st p).st (rewrite_ptr st p).ret = some p ∧
      ∀ o ∈ st.oob, o.base ≠ (rewrite_ptr st p).ret := by
  have hne : (if st.cursor = 0 then st.lower else st.cursor) + 1 ≠ st.upper :=
    Nat.ne_of_lt hlt
  unfold rewrite_ptr
  simp only [if_neg hne]
  set c := (if st.cursor = 0 then st.lower else st.cursor) + 1 with hc
  have hlow : st.lower < c := by
    rcases hcur with h0 | hle
    · simp [hc, h0]
    · by_cases h0 : st.cursor = 0
      · simp [hc, h0]
      · simp only [hc, if_neg h0]
        omega
  constructor
  · unfold pchk_getActualValue
    dsimp only
    rw [if_neg (by omega)]
    have hmask : c &&& (mask32 ^^^ (st.upper - 1)) = 0 := by
      rw [hupper]
      exact land_high_mask_eq_zero hk (by omega)
    rw [if_neg (by simp [hmask])]
    unfold regRetrieve regInsert
    rw [List.find?_cons_of_pos _ (by simp)]
  · intro o ho
    have := hkeys o ho
    omega

/-- Witness for C5 at a concrete state: range [16, 64), first rewrite of
pointer 1000 issues sentinel 17 and the reverse lookup returns 1000. -/
theorem rewrite_ptr_roundtrip_fresh_witness :
    pchk_getActualValue (rewrite_ptr ⟨16, 64, 0, []⟩ 1000).st
        (rewrite_ptr ⟨16, 64, 0, []⟩ 1000).ret = some 1000 ∧
      ∀ o ∈ ([] : Registry), o.base ≠ (rewrite_ptr ⟨16, 64, 0, []⟩ 1000).ret :=
  rewrite_ptr_roundtrip_fresh ⟨16, 64, 0, []⟩ 1000 6 (by norm_num) (by norm_num)
    (Or.inl rfl) (by norm_num) (by simp)

/-- Counterexample to claim C6 as stated: when the sentinel cursor reaches
the end of the reserved range, `rewrite_ptr` does not terminate the program;
it returns normally (no abort on any path, `fatal = false`) and hands back
the original pointer, execution continuing.  Concrete input: range [16, 17),
first rewrite exhausts the range. -/
theorem rewrite_ptr_exhaustion_not_fatal :
    (rewrite_ptr ⟨16, 17, 0, []⟩ 1000).fatal = false ∧
      (rewrite_ptr ⟨16, 17, 0, []⟩ 1000).ret = 1000 := by
  constructor <;> rfl

/-- Claim C6 amended: when the sentinel cursor reaches the end of the
reserved range, `rewrite_ptr` reports the exhaustion and returns the pointer
unrewritten without terminating the program; it records no OOB entry, and
the cursor is left at the range end rather than wrapped around, so sentinel
addresses are never reused. -/
theorem rewrite_ptr_exhaustion (st : RewriterState) (p : Nat)
    (h : (if st.cursor = 0 then st.lower else st.cursor) + 1 = st.upper) :
    rewrite_ptr st p = ⟨p, { st with cursor := st.upper }, false⟩ := by
  unfold rewrite_ptr
  rw [h]
  simp

/-- Witness for the amended C6: at the concrete exhausted state the result
is the original pointer with unchanged OOB tree and no abort. -/
theorem rewrite_ptr_exhaustion_witness :
    rewrite_ptr ⟨16, 17, 0, []⟩ 1000 = ⟨1000, ⟨16, 17, 17, []⟩, false⟩ :=
  rewrite_ptr_exhaustion ⟨16, 17, 0, []⟩ 1000 (by norm_num)

/-- Runtime configuration flags read by the check engine (struct ConfigData;
only the fields the embedded code branches on). -/
structure ConfigDataT where
  strictIndexing : Bool
  trackExternalMallocs : Bool
deriving DecidableEq, Repr

/-- Violation report emitted through `ReportBoundsCheck`; the fields are the
source pointer, the result pointer and the reported object start/length
(program-counter and allocation-identifier arguments elided). -/
inductive Report where
  | bounds (source dest objStart objLen : Nat)
deriving DecidableEq, Repr

/-- Outcome of one bounds check: the returned pointer, the violation reports
emitted (in order), and the rewriter state afterwards. -/
structure CheckOutcome where
  ret : Nat
  reports : List Report
  rw : RewriterState
deriving DecidableEq, Repr

/-- Embedding of `boundscheck_check` (PoolAllocatorBitMask.cpp:1600-1708),
the slow path shared by boundscheck and boundscheckui.  ObjLen nonzero means
the source was found: rewrite when strict indexing is off or the result is
exactly one past the end, else report.  ObjLen zero: tolerate indexing that
stays inside the NULL guard page (addresses below 4096), rewrite when
leaving it with strict indexing off, else report and fall through to the
external-objects registry; a miss or out-of-bounds hit there falls through
to the final handler, which reports only when `canFail` is set and returns
the destination unchanged. -/
def boundscheck_check (cfg : ConfigDataT) (ext : Registry) (st : RewriterState)
    (objStart objLen source dest : Nat) (canFail : Bool) : CheckOutcome :=
  if objLen ≠ 0 then
    if cfg.strictIndexing = false ∨ dest = objStart + objLen then
      let r := rewrite_ptr st dest
      ⟨r.ret, [], r.st⟩
    else
      ⟨dest, [Report.bounds source dest objStart objLen], st⟩
  else
    if source < 4096 ∧ dest < 4096 then ⟨dest, [], st⟩
    else if source < 4096 ∧ cfg.strictIndexing = false then
      let r := rewrite_ptr st dest
      ⟨r.ret, [], r.st⟩
    else
      let guardReports : List Report :=
        if source < 4096 then [Report.bounds source dest 0 4096] else []
      match (if cfg.trackExternalMallocs then regRetrieve ext source else none) with
      | some o =>
          if o.base ≤ dest ∧ dest < o.base + o.len then
            ⟨dest, guardReports, st⟩
          else
            if canFail then
              ⟨dest, guardReports ++ [Report.bounds source dest o.base objLen,
                                      Report.bounds source dest 0 0], st⟩
            else
              ⟨dest, guardReports ++ [Report.bounds source dest o.base objLen], st⟩
      | none =>
          if canFail then ⟨dest, guardReports ++ [Report.bounds source dest 0 0], st⟩
          else ⟨dest, guardReports, st⟩

/-- Common body of `boundscheck` and `boundscheckui`
(PoolAllocatorBitMask.cpp:1718-1739 and 1752-1773, identical except for the
`CanFail` argument of the slow path): look the source pointer up in the
pool's object registry; accept immediately when the destination lies within
the same object, else call the slow path. -/
def boundscheckImpl (cfg : ConfigDataT) (objects ext : Registry) (st : RewriterState)
    (source dest : Nat) (canFail : Bool) : CheckOutcome :=
  let found := regRetrieve objects source
  let objStart := match found with | some o => o.base | none => source
  let objLen := match found with | some o => o.len | none => 0
  if objLen ≠ 0 ∧ objStart ≤ dest ∧ dest < objStart + objLen then
    ⟨dest, [], st⟩
  else
    boundscheck_check cfg ext st objStart objLen source dest canFail

/-- Embedding of `boundscheck` (the complete variant, CanFail = true). -/
def boundscheck (cfg : ConfigDataT) (objects ext : Registry) (st : RewriterState)
    (source dest : Nat) : CheckOutcome :=
  boundscheckImpl cfg objects ext st source dest true

/-- Embedding of `boundscheckui` (the incomplete variant, CanFail = false). -/
def boundscheckui (cfg : ConfigDataT) (objects ext : Registry) (st : RewriterState)
    (source dest : Nat) : CheckOutcome :=
  boundscheckImpl cfg objects ext st source dest false

/-- Acceptance in the sense of claim C1: the check returns the destination
pointer unchanged, emits no report, and performs no rewrite (the rewriter
state is untouched). -/
def accepts (out : CheckOutcome) (st : RewriterState) (dest : Nat) : Prop :=
  out.ret = dest ∧ out.reports = [] ∧ out.rw = st

instance (out : CheckOutcome) (st : RewriterState) (dest : Nat) :
    Decidable (accepts out st dest) := by
  unfold accepts
  infer_instance

theorem rewrite_ptr_cursor (st : RewriterState) (p : Nat) :
    (rewrite_ptr st p).st.cursor = (if st.cursor = 0 then st.lower else st.cursor) + 1 := by
  unfold rewrite_ptr
  dsimp only
  split <;> split <;> rfl

theorem rewrite_ptr_changes_state (st : RewriterState) (p : Nat) :
    (rewrite_ptr st p).st ≠ st := by
  intro hcon
  have hcur := rewrite_ptr_cursor st p
  rw [hcon] at hcur
  by_cases h0 : st.cursor = 0
  · rw [if_pos h0] at hcur
    omega
  · rw [if_neg h0] at hcur
    omega

theorem regRetrieve_some_contains {r : Registry} {addr : Nat} {o : Obj}
    (h : regRetrieve r addr = some o) : o.base ≤ addr ∧ addr < o.base + o.len := by
  have := List.find?_some h
  simp at this
  exact this

theorem boundscheckImpl_accepts_iff (cfg : ConfigDataT) (objects ext : Registry)
    (st : RewriterState) (source dest : Nat) (canFail : Bool) (o : Obj)
    (hfind : regRetrieve objects source = some o) :
    accepts (boundscheckImpl cfg objects ext st source dest canFail) st dest ↔
      o.base ≤ dest ∧ dest < o.base + o.len := by
  have hcont := regRetrieve_some_contains hfind
  have hlen : o.len ≠ 0 := by omega
  unfold boundscheckImpl
  rw [hfind]
  dsimp only
  by_cases hin : o.base ≤ dest ∧ dest < o.base + o.len
  · rw [if_pos ⟨hlen, hin.1, hin.2⟩]
    simp [accepts, hin]
  · rw [if_neg (by tauto)]
    simp only [hin, iff_false]
    unfold boundscheck_check
    rw [if_pos hlen]
    by_cases hrw : cfg.strictIndexing = false ∨ dest = o.base + o.len
    · rw [if_pos hrw]
      intro hacc
      exact rewrite_ptr_changes_state st dest hacc.2.2
    · rw [if_neg hrw]
      intro hacc
      simp [accepts] at hacc
/-- Counterexample to claim C1 as stated: for the object [1000, 1010)
registered in the pool, the indexing check from source 1000 to destination
1010 satisfies objStart ≤ dest ≤ objStart + objLen, yet it is not accepted:
the check rewrites the one-past-the-end result to a sentinel instead of
returning it unchanged. -/
theorem boundscheck_one_past_end_not_accept :
    regRetrieve [⟨1000, 10, 0⟩] 1000 = some ⟨1000, 10, 0⟩ ∧
      (1000 ≤ 1010 ∧ 1010 ≤ 1000 + 10) ∧
      ¬ accepts (boundscheck ⟨true, true⟩ [⟨1000, 10, 0⟩] [] ⟨16, 64, 0, []⟩ 1000 1010)
          ⟨16, 64, 0, []⟩ 1010 := by
  refine ⟨by decide, by decide, by decide⟩

/-- Claim C1 amended: for a bounds check whose source lies inside an object
registered in the pool as [objStart, objStart + objLen), both boundscheck
and boundscheckui accept — return the destination unchanged with no report
and no rewrite — if and only if objStart ≤ dest < objStart + objLen (the
upper bound is strict: a destination exactly one past the end is rewritten
to a sentinel, not accepted). -/
theorem boundscheck_accepts_iff (cfg : ConfigDataT) (objects ext : Registry)
    (st : RewriterState) (source dest : Nat) (o : Obj)
    (hfind : regRetrieve objects source = some o) :
    (accepts (boundscheck cfg objects ext st source dest) st dest ↔
        o.base ≤ dest ∧ dest < o.base + o.len) ∧
      (accepts (boundscheckui cfg objects ext st source dest) st dest ↔
        o.base ≤ dest ∧ dest < o.base + o.len) :=
  ⟨boundscheckImpl_accepts_iff cfg objects ext st source dest true o hfind,
   boundscheckImpl_accepts_iff cfg objects ext st source dest false o hfind⟩

/-- Witness for the amended C1 at a concrete input: object [1000, 1010),
source 1005, destination 1008 is accepted by both variants; destination
1010 is accepted by neither. -/
theorem boundscheck_accepts_iff_witness :
    (accepts (boundscheck ⟨true, true⟩ [⟨1000, 10, 0⟩] [] ⟨16, 64, 0, []⟩ 1005 1008)
        ⟨16, 64, 0, []⟩ 1008 ∧
      accepts (boundscheckui ⟨true, true⟩ [⟨1000, 10, 0⟩] [] ⟨16, 64, 0, []⟩ 1005 1008)
        ⟨16, 64, 0, []⟩ 1008) ∧
      ¬ accepts (boundscheckui ⟨true, true⟩ [⟨1000, 10, 0⟩] [] ⟨16, 64, 0, []⟩ 1005 1010)
          ⟨16, 64, 0, []⟩ 1010 := by
  have h8 := boundscheck_accepts_iff ⟨true, true⟩ [⟨1000, 10, 0⟩] [] ⟨16, 64, 0, []⟩
    1005 1008 ⟨1000, 10, 0⟩ (by decide)
  have h10 := boundscheck_accepts_iff ⟨true, true⟩ [⟨1000, 10, 0⟩] [] ⟨16, 64, 0, []⟩
    1005 1010 ⟨1000, 10, 0⟩ (by decide)
  exact ⟨⟨h8.1.mpr (by decide), h8.2.mpr (by decide)⟩,
         fun hacc => absurd (h10.2.mp hacc) (by decide)⟩

/-- Counterexample to claim C2 as stated: with strict indexing enabled and
the object [1000, 1010) registered, boundscheck(pool, 1000, 1010) does not
emit an out-of-bounds report; it returns a rewritten sentinel (here 17),
because a result exactly one element past the end is rewritten even under
strict indexing. -/
theorem boundscheck_one_past_end_strict_no_report :
    (boundscheck ⟨true, true⟩ [⟨1000, 10, 0⟩] [] ⟨16, 64, 0, []⟩ 1000 1010).reports = [] ∧
      (boundscheck ⟨true, true⟩ [⟨1000, 10, 0⟩] [] ⟨16, 64, 0, []⟩ 1000 1010).ret = 17 :=
  ⟨by decide, by decide⟩

/-- Claim C2 amended: for an object registered in the pool as [B, B+N), the
indexing check boundscheck(pool, B, B+N) returns a rewritten sentinel
pointer regardless of the strict-indexing flag (strict indexing still
tolerates a result exactly one element past the end), emitting no report,
provided the sentinel range is not exhausted. -/
theorem boundscheck_one_past_end_rewrites (cfg : ConfigDataT) (objects ext : Registry)
    (st : RewriterState) (B : Nat) (o : Obj)
    (hfind : regRetrieve objects B = some o) (hbase : o.base = B)
    (hne : (if st.cursor = 0 then st.lower else st.cursor) + 1 ≠ st.upper) :
    boundscheck cfg objects ext st B (B + o.len) =
      ⟨(if st.cursor = 0 then st.lower else st.cursor) + 1, [],
       { st with
          cursor := (if st.cursor = 0 then st.lower else st.cursor) + 1,
          oob := regInsert st.oob ((if st.cursor = 0 then st.lower else st.cursor) + 1)
            1 (B + o.len) }⟩ := by
  have hcont := regRetrieve_some_contains hfind
  have hlen : o.len ≠ 0 := by omega
  unfold boundscheck boundscheckImpl
  rw [hfind]
  dsimp only
  rw [if_neg (by omega)]
  unfold boundscheck_check
  rw [if_pos hlen, if_pos (Or.inr (by omega))]
  unfold rewrite_ptr
  dsimp only
  rw [if_neg hne]

/-- Witness for the amended C2 at a concrete input: strict indexing on,
object [1000, 1010), boundscheck from 1000 to 1010 yields sentinel 17 with
an OOB record for it and no report. -/
theorem boundscheck_one_past_end_rewrites_witness :
    boundscheck ⟨true, true⟩ [⟨1000, 10, 0⟩] [] ⟨16, 64, 0, []⟩ 1000 1010 =
      ⟨17, [], ⟨16, 64, 17, [⟨17, 1, 1010⟩]⟩⟩ :=
  (boundscheck_one_past_end_rewrites ⟨true, true⟩ [⟨1000, 10, 0⟩] [] ⟨16, 64, 0, []⟩
    1000 ⟨1000, 10, 0⟩ (by decide) rfl (by decide)).trans (by decide)

/-- Condition, read off the structure of boundscheck_check, under which the
final CanFail-guarded handler is reached: the source was found in no pool
object, the NULL-guard-page early exits do not apply, and the
external-objects lookup (when enabled) does not find an object containing
the destination. -/
def reachesFinalHandler (cfg : ConfigDataT) (ext : Registry)
    (objLen source dest : Nat) : Bool :=
  decide (objLen = 0) &&
    !(decide (source < 4096) && decide (dest < 4096)) &&
    !(decide (source < 4096) && !cfg.strictIndexing) &&
    (match (if cfg.trackExternalMallocs then regRetrieve ext source else none) with
     | some o => !(decide (o.base ≤ dest) && decide (dest < o.base + o.len))
     | none => true)

theorem boundscheck_check_canFail_diff (cfg : ConfigDataT) (ext : Registry)
    (st : RewriterState) (objStart objLen source dest : Nat) :
    (boundscheck_check cfg ext st objStart objLen source dest true).ret
        = (boundscheck_check cfg ext st objStart objLen source dest false).ret ∧
      (boundscheck_check cfg ext st objStart objLen source dest true).rw
        = (boundscheck_check cfg ext st objStart objLen source dest false).rw ∧
      (boundscheck_check cfg ext st objStart objLen source dest true).reports
        = (boundscheck_check cfg ext st objStart objLen source dest false).reports ++
            (if reachesFinalHandler cfg ext objLen source dest
             then [Report.bounds source dest 0 0] else []) := by
  unfold boundscheck_check reachesFinalHandler
  by_cases h1 : objLen ≠ 0
  · simp only [if_pos h1, h1]
    split <;> simp
  · simp only [if_neg h1]
    push_neg at h1
    subst h1
    by_cases h2 : source < 4096 ∧ dest < 4096
    · simp [if_pos h2, h2]
    · rw [if_neg h2, if_neg h2]
      by_cases h3 : source < 4096 ∧ cfg.strictIndexing = false
      · simp [if_pos h3, h3]
      · rw [if_neg h3, if_neg h3]
        have hc1 : 4096 ≤ source ∨ 4096 ≤ dest := by omega
        have hc2 : 4096 ≤ source ∨ cfg.strictIndexing = true := by
          rcases Nat.lt_or_ge source 4096 with hs | hs
          · cases hcfg : cfg.strictIndexing
            · exact absurd ⟨hs, hcfg⟩ h3
            · exact Or.inr rfl
          · exact Or.inl hs
        cases hext : (if cfg.trackExternalMallocs then regRetrieve ext source else none) with
        | none =>
            simp [hext, h2, h3]
            rw [if_pos ⟨hc1, hc2⟩]
        | some o =>
            by_cases h4 : o.base ≤ dest ∧ dest < o.base + o.len
            · simp [hext, if_pos h4, h4, h2, h3]
            · simp [hext, if_neg h4, h4, h2, h3]
              rw [if_pos ⟨⟨hc1, hc2⟩, by omega⟩]

/-- Counterexample to claim C4 as stated: the two variants also differ on an
input whose source pointer IS found in a registry.  With external tracking
on, the source 8000 is found in the external-objects registry (object
[8000, 8016)) but the destination 8100 is outside it: both variants return
the destination, yet the complete variant emits an additional final
violation report, so their behaviors differ outside the claimed single
"found in no registry at all" case. -/
theorem boundscheck_variants_differ_on_external_hit :
    regRetrieve [⟨8000, 16, 0⟩] 8000 = some ⟨8000, 16, 0⟩ ∧
      (boundscheck ⟨true, true⟩ [] [⟨8000, 16, 0⟩] ⟨16, 64, 0, []⟩ 8000 8100).ret
        = (boundscheckui ⟨true, true⟩ [] [⟨8000, 16, 0⟩] ⟨16, 64, 0, []⟩ 8000 8100).ret ∧
      (boundscheck ⟨true, true⟩ [] [⟨8000, 16, 0⟩] ⟨16, 64, 0, []⟩ 8000 8100).reports
        ≠ (boundscheckui ⟨true, true⟩ [] [⟨8000, 16, 0⟩] ⟨16, 64, 0, []⟩ 8000 8100).reports :=
  ⟨by decide, by decide, by decide⟩

/-- Claim C4 amended: boundscheck (CanFail = true) and boundscheckui
(CanFail = false) always return the same pointer and leave the rewriter in
the same state; their emitted reports coincide except exactly when the
final fall-through handler is reached — the source is found in no pool
object, the NULL-guard-page early exits do not apply, and the external
lookup (when enabled) does not contain the destination (this includes the
case of a source found in the external registry with an out-of-bounds
destination, not only the source-found-nowhere case) — where the complete
variant emits one additional trailing violation report with empty object
bounds, on top of any reports both variants already emitted. -/
theorem boundscheck_vs_boundscheckui (cfg : ConfigDataT) (objects ext : Registry)
    (st : RewriterState) (source dest : Nat) :
    (boundscheck cfg objects ext st source dest).ret
        = (boundscheckui cfg objects ext st source dest).ret ∧
      (boundscheck cfg objects ext st source dest).rw
        = (boundscheckui cfg objects ext st source dest).rw ∧
      (boundscheck cfg objects ext st source dest).reports
        = (boundscheckui cfg objects ext st source dest).reports ++
            (if reachesFinalHandler cfg ext
                (match regRetrieve objects source with | some o => o.len | none => 0)
                source dest
             then [Report.bounds source dest 0 0] else []) := by
  unfold boundscheck boundscheckui boundscheckImpl
  cases hfind : regRetrieve objects source with
  | none =>
      dsimp only
      split
      · rename_i hfast
        exact absurd rfl hfast.1
      · exact boundscheck_check_canFail_diff cfg ext st source 0 source dest
  | some o =>
      dsimp only
      split
      · rename_i hfast
        have : reachesFinalHandler cfg ext o.len source dest = false := by
          unfold reachesFinalHandler
          simp [hfast.1]
        simp [this]
      · exact boundscheck_check_canFail_diff cfg ext st o.base o.len source dest

/-- Clamp applied by poolalloc (PoolAllocatorBitMask.cpp:1092-1093): a
zero-byte request is allocated, and hence registered, as one byte. -/
def allocLen (n : Nat) : Nat := if n = 0 then 1 else n

/-- Embedding of poolcheck (PoolAllocatorBitMask.cpp:1513-1528): look the
node up in the pool's object registry and pass (`true`) iff a found object
contains it; otherwise a load/store violation is reported (`false`). -/
def poolcheck (objects : Registry) (node : Nat) : Bool :=
  match regRetrieve objects node with
  | some o => decide (o.base ≤ node) && decide (node < o.base + o.len)
  | none => false

/-- One public pool operation at the object-registry level: a poolalloc
returning address `ret` for a request of `n` bytes, or a poolfree of
pointer `p`. -/
inductive PoolOp where
  | alloc (ret n : Nat)
  | free (p : Nat)
deriving DecidableEq, Repr

/-- Registry effect of one operation: poolalloc registers the returned
address with the (clamped) request size
(`adl_splay_insert(&Pool->Objects, retAddress, NumBytes, ...)`, lines
1125/1173/1211/1275); poolfree removes the freed pointer's entry
(`adl_splay_delete(&Pool->Objects, Node)`, line 2099).  The debug-metadata
tag is elided (0). -/
def stepRegistry (r : Registry) : PoolOp → Registry
  | .alloc ret n => regInsert r ret (allocLen n) 0
  | .free p => regDelete r p

/-- Run a sequence of pool operations over the registry. -/
def runOps (r : Registry) : List PoolOp → Registry
  | [] => r
  | op :: rest => runOps (stepRegistry r op) rest

/-- Disjointness of two registry entries as address ranges. -/
def DisjObj (a b : Obj) : Prop :=
  a.base + a.len ≤ b.base ∨ b.base + b.len ≤ a.base

/-- Soundness of one operation against the current registry: an allocation
returns an address range disjoint from every live object (the slab
allocator hands out unallocated nodes and the dangling-pointer remapper a
fresh shadow range), and a free targets the base of a live object. -/
def opOk (r : Registry) : PoolOp → Prop
  | .alloc ret n => ∀ o ∈ r, ret + allocLen n ≤ o.base ∨ o.base + o.len ≤ ret
  | .free p => ∃ o ∈ r, o.base = p

instance instDecidableOpOk (r : Registry) (op : PoolOp) : Decidable (opOk r op) :=
  match op with
  | .alloc ret n =>
      inferInstanceAs (Decidable (∀ o ∈ r, ret + allocLen n ≤ o.base ∨ o.base + o.len ≤ ret))
  | .free p => inferInstanceAs (Decidable (∃ o ∈ r, o.base = p))

/-- A well-formed operation sequence from a given registry state. -/
def ValidTrace : Registry → List PoolOp → Prop
  | _, [] => True
  | r, op :: rest => opOk r op ∧ ValidTrace (stepRegistry r op) rest

/-- Live objects as the claim words compute them: each poolalloc adds the
pair (returned address, clamped length), each poolfree removes the freed
base's pair. -/
def liveStep (l : List (Nat × Nat)) : PoolOp → List (Nat × Nat)
  | .alloc ret n => (ret, allocLen n) :: l
  | .free p => l.filter (fun q => !decide (q.1 = p))

/-- Live objects after a sequence of operations. -/
def liveAfter (l : List (Nat × Nat)) : List PoolOp → List (Nat × Nat)
  | [] => l
  | op :: rest => liveAfter (liveStep l op) rest

/-- Projection of a registry entry to the live-object view. -/
def pairOf (o : Obj) : Nat × Nat := (o.base, o.len)

theorem map_pairOf_regDelete (r : Registry) (p : Nat) :
    (regDelete r p).map pairOf = (r.map pairOf).filter (fun q => !decide (q.1 = p)) := by
  induction r with
  | nil => rfl
  | cons o t ih =>
      unfold regDelete at ih ⊢
      by_cases h : o.base = p
      · simp [List.filter_cons, h, pairOf, ih]
      · simp [List.filter_cons, h, pairOf, ih]

theorem runOps_map_live (ops : List PoolOp) (r : Registry) :
    (runOps r ops).map pairOf = liveAfter (r.map pairOf) ops := by
  induction ops generalizing r with
  | nil => rfl
  | cons op rest ih =>
      cases op with
      | alloc ret n =>
          unfold runOps liveAfter stepRegistry liveStep
          rw [ih]
          rfl
      | free p =>
          unfold runOps liveAfter stepRegistry liveStep
          rw [ih, map_pairOf_regDelete]

theorem runOps_pairwise (ops : List PoolOp) (r : Registry)
    (hv : ValidTrace r ops) (hp : List.Pairwise DisjObj r) :
    List.Pairwise DisjObj (runOps r ops) := by
  induction ops generalizing r with
  | nil => exact hp
  | cons op rest ih =>
      obtain ⟨hok, hrest⟩ := hv
      apply ih _ hrest
      cases op with
      | alloc ret n =>
          exact List.Pairwise.cons (fun o ho => hok o ho) hp
      | free p =>
          exact List.Pairwise.sublist (List.filter_sublist r) hp

theorem regRetrieve_of_contains {r : Registry} {o : Obj} {addr : Nat}
    (hp : List.Pairwise DisjObj r) (ho : o ∈ r)
    (h1 : o.base ≤ addr) (h2 : addr < o.base + o.len) :
    regRetrieve r addr = some o := by
  induction r with
  | nil => cases ho
  | cons hd t ih =>
      rcases List.mem_cons.mp ho with rfl | hmem
      · unfold regRetrieve
        rw [List.find?_cons_of_pos _ (by simp; omega)]
      · have hd_disj : DisjObj hd o := (List.pairwise_cons.mp hp).1 o hmem
        have hnot : ¬(hd.base ≤ addr ∧ addr < hd.base + hd.len) := by
          unfold DisjObj at hd_disj
          omega
        unfold regRetrieve
        rw [List.find?_cons_of_neg _ (by simpa using hnot)]
        exact ih (List.pairwise_cons.mp hp).2 hmem

/-- Counterexample to claim C3 as stated: a successful poolalloc(Pool, 0)
(returning, say, address 100) does not add an entry of length 0; poolalloc
clamps zero-byte requests to one byte, so the registry holds an entry of
length 1 at 100 and no length-0 entry. -/
theorem poolalloc_zero_registers_one_byte :
    runOps [] [PoolOp.alloc 100 0] = [⟨100, 1, 0⟩] ∧
      ¬ (⟨100, 0, 0⟩ : Obj) ∈ runOps [] [PoolOp.alloc 100 0] :=
  ⟨by decide, by decide⟩

/-- Claim C3 amended: over every well-formed sequence of poolalloc/poolfree
operations on one initialized pool (each allocation returning a fresh range
disjoint from live objects, each free hitting a live base), the registry
contains exactly the currently-live objects — each successful
poolalloc(Pool, n) adds an entry covering the returned address with length
max(n, 1) (the code clamps zero-byte requests to one byte), and each
poolfree(Pool, p) removes p's entry — the live ranges are pairwise
disjoint, and a lookup of any address inside a live object's
[base, base+len) finds exactly that object (in particular poolcheck passes
on it). -/
theorem registry_coherence (ops : List PoolOp) (hv : ValidTrace [] ops) :
    (runOps [] ops).map pairOf = liveAfter [] ops ∧
      List.Pairwise DisjObj (runOps [] ops) ∧
      ∀ o ∈ runOps [] ops, ∀ addr, o.base ≤ addr → addr < o.base + o.len →
        regRetrieve (runOps [] ops) addr = some o ∧
          poolcheck (runOps [] ops) addr = true := by
  have hpw := runOps_pairwise ops [] hv List.Pairwise.nil
  refine ⟨runOps_map_live ops [], hpw, ?_⟩
  intro o ho addr h1 h2
  have hfind := regRetrieve_of_contains hpw ho h1 h2
  refine ⟨hfind, ?_⟩
  unfold poolcheck
  rw [hfind]
  simp
  omega

/-- Witness for the amended C3 on a concrete trace: allocate 8 bytes at 100
and 4 bytes at 300, free 100, allocate 0 bytes at 100; the registry then
matches the live view, and address 101 ... 103 lookups find nothing while
address 100 and 302 find their objects. -/
theorem registry_coherence_witness :
    (runOps [] [PoolOp.alloc 100 8, PoolOp.alloc 300 4, PoolOp.free 100,
        PoolOp.alloc 100 0]).map pairOf
        = liveAfter [] [PoolOp.alloc 100 8, PoolOp.alloc 300 4, PoolOp.free 100,
            PoolOp.alloc 100 0] ∧
      regRetrieve (runOps [] [PoolOp.alloc 100 8, PoolOp.alloc 300 4, PoolOp.free 100,
          PoolOp.alloc 100 0]) 302 = some ⟨300, 4, 0⟩ ∧
      poolcheck (runOps [] [PoolOp.alloc 100 8, PoolOp.alloc 300 4, PoolOp.free 100,
          PoolOp.alloc 100 0]) 302 = true := by
  have h := registry_coherence
    [PoolOp.alloc 100 8, PoolOp.alloc 300 4, PoolOp.free 100, PoolOp.alloc 100 0]
    (by refine ⟨?_, ?_, ?_, ?_, trivial⟩ <;> decide)
  refine ⟨h.1, ?_, ?_⟩
  · exact (h.2.2 ⟨300, 4, 0⟩ (by decide) 302 (by decide) (by decide)).1
  · exact (h.2.2 ⟨300, 4, 0⟩ (by decide) 302 (by decide) (by decide)).2

/-- Pool state at the public allocation interface: the object registry and
the byte contents of memory. -/
structure Heap where
  reg : Registry
  mem : Nat → Nat

/-- Byte-wise copy of `n` bytes from `src` to `dst` (the `memcpy` called by
poolrealloc). -/
def memcpy (m : Nat → Nat) (dst src n : Nat) : Nat → Nat :=
  fun a => if dst ≤ a ∧ a < dst + n then m (src + (a - dst)) else m a

/-- Interface-level behavior of `poolalloc` (PoolAllocatorBitMask.cpp:
1071-1282) as a relation: the allocator returns some non-null address whose
(clamped) range is disjoint from every live object, registers it, and does
not change memory contents. -/
inductive PoolallocR : Heap → Nat → Nat → Heap → Prop
  | mk (h : Heap) (n ret : Nat)
      (hfresh : ∀ o ∈ h.reg, ret + allocLen n ≤ o.base ∨ o.base + o.len ≤ ret)
      (hnn : ret ≠ 0) :
      PoolallocR h n ret ⟨regInsert h.reg ret (allocLen n) 0, h.mem⟩

/-- Interface-level effect of `poolfree` (PoolAllocatorBitMask.cpp:
2036-2217): the freed pointer's registry entry is removed; memory contents
are untouched. -/
def poolfreeH (h : Heap) (p : Nat) : Heap :=
  ⟨regDelete h.reg p, h.mem⟩

/-- Embedding of `poolrealloc` (PoolAllocatorBitMask.cpp:1284-1298):
a null pointer argument delegates to poolalloc; a zero size with a non-null
pointer frees it and returns null; otherwise allocate `n` fresh bytes, copy
`n` bytes from the old object, free the old object, and return the new
address. -/
inductive PoolreallocR : Heap → Nat → Nat → Nat → Heap → Prop
  | nullPtr (h h' : Heap) (n ret : Nat) (halloc : PoolallocR h n ret h') :
      PoolreallocR h 0 n ret h'
  | zeroSize (h : Heap) (node : Nat) (hnz : node ≠ 0) :
      PoolreallocR h node 0 0 (poolfreeH h node)
  | general (h hmid : Heap) (node n new : Nat) (hnz : node ≠ 0) (hn : n ≠ 0)
      (halloc : PoolallocR h n new hmid) :
      PoolreallocR h node n new
        (poolfreeH ⟨hmid.reg, memcpy hmid.mem new node n⟩ node)

/-- Claim C10: at the public interface, poolrealloc(Pool, NULL, n) behaves
exactly as poolalloc(Pool, n); poolrealloc(Pool, p, 0) with p non-null
frees p and returns the null pointer; and otherwise poolrealloc allocates a
fresh object of n bytes, copies n bytes from the old object into it, frees
the old object (its entry leaves the registry), and returns the new
non-null address. -/
theorem poolrealloc_spec :
    (∀ (h : Heap) (n ret : Nat) (h' : Heap),
        PoolreallocR h 0 n ret h' ↔ PoolallocR h n ret h') ∧
      (∀ (h : Heap) (p ret : Nat) (h' : Heap), p ≠ 0 →
        (PoolreallocR h p 0 ret h' ↔ ret = 0 ∧ h' = poolfreeH h p)) ∧
      (∀ (h : Heap) (p n ret : Nat) (h' : Heap), p ≠ 0 → n ≠ 0 →
        PoolreallocR h p n ret h' →
        (∃ o ∈ h.reg, o.base = p ∧ o.len ≠ 0) →
        (∃ o ∈ h'.reg, o.base = ret ∧ o.len = n) ∧
          (∀ i, i < n → h'.mem (ret + i) = h.mem (p + i)) ∧
          (∀ o ∈ h'.reg, o.base ≠ p) ∧ ret ≠ 0) := by
  refine ⟨?_, ?_, ?_⟩
  · intro h n ret h'
    constructor
    · intro hr
      cases hr
      · rename_i halloc
        exact halloc
      · rename_i hnz
        exact absurd rfl hnz
      · rename_i hnz hn2 halloc
        exact absurd rfl hnz
    · intro ha
      exact PoolreallocR.nullPtr h h' n ret ha
  · intro h p ret h' hp
    constructor
    · intro hr
      cases hr
      · exact absurd rfl hp
      · exact ⟨rfl, rfl⟩
      · rename_i hnz hn2 halloc
        exact absurd rfl hn2
    · rintro ⟨rfl, rfl⟩
      exact PoolreallocR.zeroSize h p hp
  · intro h p n ret h' hp hn hr hlive
    cases hr
    · exact absurd rfl hp
    · exact absurd rfl hn
    · rename_i hmid hnz hn2 halloc
      obtain ⟨o0, ho0, hbase0, hlen0⟩ := hlive
      cases halloc
      rename_i hfresh hnn
      have hfr := hfresh o0 ho0
      have hlenn : allocLen n = n := by
        unfold allocLen
        rw [if_neg hn]
      have hret_ne : ret ≠ p := by
        rw [hlenn] at hfr
        omega
      refine ⟨?_, ?_, ?_, hnn⟩
      · refine ⟨⟨ret, allocLen n, 0⟩, ?_, rfl, hlenn⟩
        unfold poolfreeH regDelete regInsert
        simp [List.mem_filter, hret_ne]
      · intro i hi
        show memcpy h.mem ret p n (ret + i) = h.mem (p + i)
        unfold memcpy
        rw [if_pos (by omega)]
        congr 1
        omega
      · intro o ho
        have := List.mem_filter.mp ho
        simpa using this.2

/-- Witness for C10 at concrete inputs: realloc of NULL allocates; realloc
to size 0 frees and returns null; a general realloc of object [100, 105)
to 3 bytes at 200 copies the 3 bytes, registers [200, 203), and drops the
old entry. -/
theorem poolrealloc_spec_witness :
    PoolreallocR ⟨[], fun _ => 7⟩ 0 5 100 ⟨[⟨100, 5, 0⟩], fun _ => 7⟩ ∧
      PoolreallocR ⟨[⟨100, 5, 0⟩], fun _ => 7⟩ 100 0 0 ⟨[], fun _ => 7⟩ ∧
      (∃ o ∈ (poolfreeH ⟨regInsert [⟨100, 5, 0⟩] 200 (allocLen 3) 0,
          memcpy (fun _ => 7) 200 100 3⟩ 100).reg, o.base = 200 ∧ o.len = 3) := by
  refine ⟨?_, ?_, ?_⟩
  · exact (poolrealloc_spec.1 ⟨[], fun _ => 7⟩ 5 100 ⟨[⟨100, 5, 0⟩], fun _ => 7⟩).mpr
      (PoolallocR.mk ⟨[], fun _ => 7⟩ 5 100 (by simp) (by decide))
  · exact (poolrealloc_spec.2.1 ⟨[⟨100, 5, 0⟩], fun _ => 7⟩ 100 0 ⟨[], fun _ => 7⟩
      (by decide)).mpr ⟨rfl, rfl⟩
  · exact ((poolrealloc_spec.2.2 ⟨[⟨100, 5, 0⟩], fun _ => 7⟩ 100 3 200 _
      (by decide) (by decide)
      (PoolreallocR.general ⟨[⟨100, 5, 0⟩], fun _ => 7⟩ _ 100 3 200 (by decide) (by decide)
        (PoolallocR.mk ⟨[⟨100, 5, 0⟩], fun _ => 7⟩ 3 200 (by decide) (by decide)))
      ⟨⟨100, 5, 0⟩, by decide, by decide, by decide⟩)).1

/-- Bookkeeping state of one PoolSlab (PoolAllocatorBitMask.cpp:102-257):
the partial/full list links and the canonical-page pointer are irrelevant to
the bitmask bookkeeping and elided.  `alloc` is the low (allocated) bit and
`start` the high (is-start-of-run) bit of the NodeFlagsVector, as total maps
from node index; `allocated` is the allocation counter (its C type is
unsigned; under the invariants proved here it never underflows, and Nat
subtraction models it). -/
structure PoolSlab where
  isSingleArray : Bool
  firstUnused : Nat
  usedBegin : Nat
  usedEnd : Nat
  numNodes : Nat
  allocated : Nat
  alloc : Nat → Bool
  start : Nat → Bool

/-- Embedding of `markNodeAllocated`. -/
def markNodeAllocated (s : PoolSlab) (i : Nat) : PoolSlab :=
  { s with alloc := fun j => if j = i then true else s.alloc j }

/-- Embedding of `markNodeFree`. -/
def markNodeFree (s : PoolSlab) (i : Nat) : PoolSlab :=
  { s with alloc := fun j => if j = i then false else s.alloc j }

/-- Embedding of `setStartBit`. -/
def setStartBit (s : PoolSlab) (i : Nat) : PoolSlab :=
  { s with start := fun j => if j = i then true else s.start j }

/-- Embedding of `clearStartBit`. -/
def clearStartBit (s : PoolSlab) (i : Nat) : PoolSlab :=
  { s with start := fun j => if j = i then false else s.start j }

/-- The `for (i = UE; i != UE+Size; ++i) markNodeAllocated(i);` loops of
allocateMultiple, collapsed into one update. -/
def markRange (s : PoolSlab) (i cnt : Nat) : PoolSlab :=
  { s with alloc := fun j => if i ≤ j ∧ j < i + cnt then true else s.alloc j }

/-- The freeing loop of freeElement collapsed into one update: nodes in
[i, stop) are marked free and `allocated` is decremented once per node. -/
def freeRange (s : PoolSlab) (i stop : Nat) : PoolSlab :=
  { s with alloc := fun j => if i ≤ j ∧ j < stop then false else s.alloc j,
           allocated := s.allocated - (stop - i) }

/-- Embedding of PoolSlab::create (PoolAllocatorBitMask.cpp:260-286) for a
slab of `n` nodes: not a single array, nothing allocated, all flag bits
clear. -/
def createSlab (n : Nat) : PoolSlab :=
  ⟨false, 0, 0, 0, n, 0, fun _ => false, fun _ => false⟩

/-- Scan upward from `i`, stopping at the first index that reaches `stop` or
is not allocated.  This is the `do { ++FU; } while (FU != SlabSize &&
isNodeAllocated(FU))` cursor advance of allocateSingle (with `stop` the slab
size) and the `for (i = FirstUnused+Size; i < UsedEnd; ++i) if
(!isNodeAllocated(i)) break;` rescan of allocateMultiple (with `stop` the
used end). -/
def scanAllocatedFrom (alloc : Nat → Bool) (stop i : Nat) : Nat :=
  if h : i < stop then
    if alloc i then scanAllocatedFrom alloc stop (i + 1) else i
  else i
termination_by stop - i

/-- First allocated index in [i, stop), or `stop` if the whole interval is
free: the `for (LastUnused = Idx+1; (LastUnused != Idx+Size) &&
(!isNodeAllocated(LastUnused)); ++LastUnused);` scan of allocateMultiple. -/
def firstAllocated (alloc : Nat → Bool) (i stop : Nat) : Nat :=
  if h : i < stop then
    if alloc i then i else firstAllocated alloc (i + 1) stop
  else stop
termination_by stop - i

/-- The `while (Idx+Size <= getSlabSize() && isNodeAllocated(Idx)) ++Idx;`
skip of allocateMultiple: advance past allocated nodes while a run of
`size` nodes could still fit. -/
def skipAllocated (alloc : Nat → Bool) (n size i : Nat) : Nat :=
  if h : i + size ≤ n then
    if alloc i then skipAllocated alloc n size (i + 1) else i
  else i
termination_by n + 1 - i
decreasing_by omega

theorem scanAllocatedFrom_spec (alloc : Nat → Bool) (stop : Nat) (i : Nat) :
    i ≤ scanAllocatedFrom alloc stop i ∧
      (∀ j, i ≤ j → j < scanAllocatedFrom alloc stop i → alloc j = true) ∧
      (scanAllocatedFrom alloc stop i < stop → alloc (scanAllocatedFrom alloc stop i) = false) ∧
      (i ≤ stop → scanAllocatedFrom alloc stop i ≤ stop) ∧
      (stop ≤ i → scanAllocatedFrom alloc stop i = i) := by
  have key : ∀ k i, stop - i ≤ k →
      i ≤ scanAllocatedFrom alloc stop i ∧
        (∀ j, i ≤ j → j < scanAllocatedFrom alloc stop i → alloc j = true) ∧
        (scanAllocatedFrom alloc stop i < stop →
          alloc (scanAllocatedFrom alloc stop i) = false) ∧
        (i ≤ stop → scanAllocatedFrom alloc stop i ≤ stop) ∧
        (stop ≤ i → scanAllocatedFrom alloc stop i = i) := by
    intro k
    induction k with
    | zero =>
        intro i hk
        unfold scanAllocatedFrom
        rw [dif_neg (by omega)]
        exact ⟨le_refl i, fun j h1 h2 => by omega, fun h => by omega,
          fun h => by omega, fun h => rfl⟩
    | succ k ih =>
        intro i hk
        unfold scanAllocatedFrom
        by_cases h : i < stop
        · rw [dif_pos h]
          by_cases ha : alloc i
          · rw [if_pos ha]
            obtain ⟨g1, g2, g3, g4, g5⟩ := ih (i + 1) (by omega)
            refine ⟨by omega, ?_, g3, fun _ => g4 (by omega), fun hle => by omega⟩
            intro j hj1 hj2
            rcases Nat.eq_or_lt_of_le hj1 with rfl | hj1
            · exact ha
            · exact g2 j hj1 hj2
          · rw [if_neg ha]
            exact ⟨le_refl i, fun j h1 h2 => by omega,
              fun _ => by simpa using ha, fun _ => by omega, fun hle => rfl⟩
        · rw [dif_neg h]
          exact ⟨le_refl i, fun j h1 h2 => by omega, fun hlt => by omega,
            fun hle => by omega, fun _ => rfl⟩
  exact key (stop - i) i (le_refl _)

theorem firstAllocated_spec (alloc : Nat → Bool) (stop : Nat) (i : Nat) :
    (firstAllocated alloc i stop = stop ∧ ∀ j, i ≤ j → j < stop → alloc j = false) ∨
      (i ≤ firstAllocated alloc i stop ∧ firstAllocated alloc i stop < stop ∧
        alloc (firstAllocated alloc i stop) = true ∧
        ∀ j, i ≤ j → j < firstAllocated alloc i stop → alloc j = false) := by
  have key : ∀ k i, stop - i ≤ k →
      (firstAllocated alloc i stop = stop ∧ ∀ j, i ≤ j → j < stop → alloc j = false) ∨
        (i ≤ firstAllocated alloc i stop ∧ firstAllocated alloc i stop < stop ∧
          alloc (firstAllocated alloc i stop) = true ∧
          ∀ j, i ≤ j → j < firstAllocated alloc i stop → alloc j = false) := by
    intro k
    induction k with
    | zero =>
        intro i hk
        left
        unfold firstAllocated
        rw [dif_neg (by omega)]
        exact ⟨rfl, fun j h1 h2 => by omega⟩
    | succ k ih =>
        intro i hk
        unfold firstAllocated
        by_cases h : i < stop
        · rw [dif_pos h]
          by_cases ha : alloc i
          · rw [if_pos ha]
            exact Or.inr ⟨le_refl i, h, ha, fun j h1 h2 => by omega⟩
          · rw [if_neg ha]
            rcases ih (i + 1) (by omega) with ⟨g1, g2⟩ | ⟨g1, g2, g3, g4⟩
            · refine Or.inl ⟨g1, ?_⟩
              intro j hj1 hj2
              rcases Nat.eq_or_lt_of_le hj1 with rfl | hj1
              · simpa using ha
              · exact g2 j hj1 hj2
            · refine Or.inr ⟨by omega, g2, g3, ?_⟩
              intro j hj1 hj2
              rcases Nat.eq_or_lt_of_le hj1 with rfl | hj1
              · simpa using ha
              · exact g4 j hj1 hj2
        · rw [dif_neg h]
          exact Or.inl ⟨rfl, fun j h1 h2 => by omega⟩
  exact key (stop - i) i (le_refl _)

theorem skipAllocated_spec (alloc : Nat → Bool) (n size : Nat) (i : Nat) :
    i ≤ skipAllocated alloc n size i ∧
      (skipAllocated alloc n size i + size ≤ n →
        alloc (skipAllocated alloc n size i) = false) := by
  have key : ∀ k i, n + 1 - i ≤ k →
      i ≤ skipAllocated alloc n size i ∧
        (skipAllocated alloc n size i + size ≤ n →
          alloc (skipAllocated alloc n size i) = false) := by
    intro k
    induction k with
    | zero =>
        intro i hk
        unfold skipAllocated
        rw [dif_neg (by omega)]
        exact ⟨le_refl i, fun h => by omega⟩
    | succ k ih =>
        intro i hk
        unfold skipAllocated
        by_cases h : i + size ≤ n
        · rw [dif_pos h]
          by_cases ha : alloc i
          · rw [if_pos ha]
            obtain ⟨g1, g2⟩ := ih (i + 1) (by omega)
            exact ⟨by omega, g2⟩
          · rw [if_neg ha]
            exact ⟨le_refl i, fun _ => by simpa using ha⟩
        · rw [dif_neg h]
          exact ⟨le_refl i, fun hc => absurd hc h⟩
  exact key (n + 1 - i) i (le_refl _)

/-- Embedding of PoolSlab::allocateSingle (PoolAllocatorBitMask.cpp:
334-391): single arrays refuse; first try the node at UsedEnd, else
allocate at FirstUnused and advance the cursor; `none` models the -1
return. -/
def allocateSingle (s : PoolSlab) : Option Nat × PoolSlab :=
  if s.isSingleArray then (none, s)
  else if s.usedEnd < s.numNodes then
    let ue := s.usedEnd
    let s1 := setStartBit (markNodeAllocated s ue) ue
    let s2 := if s1.firstUnused = ue then { s1 with firstUnused := s1.firstUnused + 1 } else s1
    let s3 := if s2.usedBegin > ue then { s2 with usedBegin := ue } else s2
    (some ue, { s3 with usedEnd := ue + 1, allocated := s3.allocated + 1 })
  else if s.firstUnused < s.numNodes then
    let idx := s.firstUnused
    let s1 := setStartBit (markNodeAllocated s idx) idx
    let s2 := { s1 with firstUnused := scanAllocatedFrom s1.alloc s1.numNodes (idx + 1) }
    let s3 := if s2.usedBegin > idx then { s2 with usedBegin := idx } else s2
    (some idx, { s3 with allocated := s3.allocated + 1 })
  else (none, s)

/-- Body of the `while (Idx+Size <= getSlabSize())` search loop of
allocateMultiple, starting at `idx`: find a contiguous free run of `size`
nodes, claim it and rescan the FirstUnused cursor, or give up (`none`). -/
def allocMultScan (s : PoolSlab) (size idx : Nat) : Option Nat × PoolSlab :=
  if h : idx + size ≤ s.numNodes then
    let lastUnused := firstAllocated s.alloc (idx + 1) (idx + size)
    if heq : lastUnused = idx + size then
      let s1 := markRange (setStartBit s idx) idx size
      let s2 :=
        if idx = s1.firstUnused then
          let i := scanAllocatedFrom s1.alloc s1.usedEnd (s1.firstUnused + size)
          let s' := { s1 with firstUnused := i }
          if s1.alloc i then { s' with firstUnused := s'.numNodes } else s'
        else s1
      let s3 := if s2.usedBegin > idx then { s2 with usedBegin := idx } else s2
      (some idx, { s3 with allocated := s3.allocated + size })
    else
      allocMultScan s size (skipAllocated s.alloc s.numNodes size lastUnused)
  else (none, s)
termination_by s.numNodes + 1 - idx
decreasing_by
  rcases firstAllocated_spec s.alloc (idx + size) (idx + 1) with ⟨he, _⟩ | ⟨hge, _, _, _⟩
  · exact absurd he heq
  · have h2 := (skipAllocated_spec s.alloc s.numNodes size
      (firstAllocated s.alloc (idx + 1) (idx + size))).1
    omega

/-- Embedding of PoolSlab::allocateMultiple (PoolAllocatorBitMask.cpp:
395-479): single arrays refuse; first try the `size` nodes at UsedEnd, else
search for a contiguous free run from the FirstUnused cursor; `none` models
the -1 return. -/
def allocateMultiple (s : PoolSlab) (size : Nat) : Option Nat × PoolSlab :=
  if s.isSingleArray then (none, s)
  else if s.usedEnd + size ≤ s.numNodes then
    let ue := s.usedEnd
    let s1 := markRange (setStartBit s ue) ue size
    let s2 := if s1.firstUnused = ue then { s1 with firstUnused := s1.firstUnused + size } else s1
    let s3 := if s2.usedBegin > ue then { s2 with usedBegin := ue } else s2
    (some ue, { s3 with usedEnd := ue + size, allocated := s3.allocated + size })
  else
    allocMultScan s size s.firstUnused

/-- Embedding of PoolSlab::lastNodeAllocated (PoolAllocatorBitMask.cpp:
619-670) by its documented behavior, of which the word-level flag scan in
the source is the optimized form: one past the highest allocated node at or
below `scanIdx`, or 0 if there is none. -/
def lastNodeAllocated (alloc : Nat → Bool) : Nat → Nat
  | 0 => if alloc 0 then 1 else 0
  | j + 1 => if alloc (j + 1) then j + 2 else lastNodeAllocated alloc j

/-- The `while (ElementEndIdx != UE && !isStartOfAllocation(ElementEndIdx)
&& isNodeAllocated(ElementEndIdx))` scan of freeElement: first index at or
above `i` that reaches UsedEnd, carries a start bit, or is free.  (In the
source the loop counter is bounded by UsedEnd, which it can only hit
exactly; the embedding stops at any index at or above it.) -/
def runEnd (s : PoolSlab) (i : Nat) : Nat :=
  if h : i < s.usedEnd then
    if s.start i = false ∧ s.alloc i = true then runEnd s (i + 1) else i
  else i
termination_by s.usedEnd - i

/-- Embedding of PoolSlab::freeElement (PoolAllocatorBitMask.cpp:540-617):
freeing an unallocated node is a no-op; freeing a node that does not start
a run fails the source's assertion (`none`); otherwise clear the run's
bits, then maintain FirstUnused, UsedBegin and UsedEnd. -/
def freeElement (s : PoolSlab) (idx : Nat) : Option PoolSlab :=
  if s.alloc idx = false then some s
  else
    let s1 := { markNodeFree s idx with allocated := s.allocated - 1 }
    if s1.start idx = false then none
    else
      let s2 := clearStartBit s1 idx
      let ee := runEnd s2 (idx + 1)
      let s3 := freeRange s2 (idx + 1) ee
      let s4 := if idx < s3.firstUnused then { s3 with firstUnused := idx } else s3
      let s5 := if idx = s4.usedBegin then { s4 with usedBegin := ee } else s4
      if ee = s5.usedEnd then
        if s5.usedBegin = s5.usedEnd then
          some { s5 with firstUnused := 0, usedBegin := 0, usedEnd := 0 }
        else if s5.firstUnused = idx then
          some { s5 with firstUnused := idx, usedEnd := idx }
        else
          let ue := lastNodeAllocated s5.alloc idx
          let s6 := { s5 with usedEnd := ue }
          some (if s6.firstUnused > ue then { s6 with firstUnused := ue } else s6)
      else some s5

/-- A live allocation: the node index at which its run starts, and the
number of contiguous nodes in the run. -/
abbrev Run := Nat × Nat

/-- Two runs occupy disjoint node ranges. -/
def RunDisj (a b : Run) : Prop := a.1 + a.2 ≤ b.1 ∨ b.1 + b.2 ≤ a.1

theorem runDisj_symm : Symmetric RunDisj := fun _ _ h => h.symm

/-- A node is covered by one of the given runs. -/
def covers (runs : List Run) (i : Nat) : Prop :=
  ∃ r ∈ runs, r.1 ≤ i ∧ i < r.1 + r.2

/-- Representation invariant of a (non-single-array) PoolSlab against the
set of live allocations `runs`: the slab's own invariant
`FirstUnused ≤ UsedEnd ≤ #nodes`; the allocated bit set on exactly the
covered nodes and the start bit on exactly the run starts; runs nonempty,
ending at or before UsedEnd, pairwise disjoint and at or after UsedBegin;
the node below UsedEnd allocated (UsedEnd is one past the last allocated
node); every node below FirstUnused allocated and, when it is inside the
slab, the FirstUnused node free. -/
structure SlabInv (s : PoolSlab) (runs : List Run) : Prop where
  notSingle : s.isSingleArray = false
  fu_le : s.firstUnused ≤ s.usedEnd
  ue_le : s.usedEnd ≤ s.numNodes
  alloc_iff : ∀ i, s.alloc i = true ↔ covers runs i
  start_iff : ∀ i, s.start i = true ↔ ∃ r ∈ runs, r.1 = i
  runs_wf : ∀ r ∈ runs, 0 < r.2 ∧ r.1 + r.2 ≤ s.usedEnd
  disj : List.Pairwise RunDisj runs
  ub_le : ∀ r ∈ runs, s.usedBegin ≤ r.1
  ue_last : 0 < s.usedEnd → s.alloc (s.usedEnd - 1) = true
  below_fu : ∀ i, i < s.firstUnused → s.alloc i = true
  fu_free : s.firstUnused < s.numNodes → s.alloc s.firstUnused = false

theorem SlabInv.alloc_ge_ue {s : PoolSlab} {runs : List Run} (h : SlabInv s runs)
    {i : Nat} (hi : s.usedEnd ≤ i) : s.alloc i = false := by
  cases hb : s.alloc i with
  | false => rfl
  | true =>
      obtain ⟨r, hr, h1, h2⟩ := (h.alloc_iff i).mp hb
      have := (h.runs_wf r hr).2
      omega

theorem SlabInv.covers_unique {s : PoolSlab} {runs : List Run} (h : SlabInv s runs)
    {r1 r2 : Run} {i : Nat} (hr1 : r1 ∈ runs) (hr2 : r2 ∈ runs)
    (h11 : r1.1 ≤ i) (h12 : i < r1.1 + r1.2)
    (h21 : r2.1 ≤ i) (h22 : i < r2.1 + r2.2) : r1 = r2 := by
  by_contra hne
  have := h.disj.forall runDisj_symm hr1 hr2 hne
  unfold RunDisj at this
  omega

theorem SlabInv.start_unique {s : PoolSlab} {runs : List Run} (h : SlabInv s runs)
    {r1 r2 : Run} (hr1 : r1 ∈ runs) (hr2 : r2 ∈ runs) (heq : r1.1 = r2.1) : r1 = r2 := by
  have w1 := h.runs_wf r1 hr1
  have w2 := h.runs_wf r2 hr2
  exact h.covers_unique hr1 hr2 (le_refl _) (by omega) (by omega) (by omega)

/-- The empty slab made by PoolSlab::create satisfies the invariant with no
live allocations. -/
theorem createSlab_inv (n : Nat) : SlabInv (createSlab n) [] := by
  refine ⟨rfl, le_refl 0, Nat.zero_le n, ?_, ?_, ?_, List.Pairwise.nil, ?_, ?_, ?_, ?_⟩
  · intro i
    simp [createSlab, covers]
  · intro i
    simp [createSlab]
  · intro r hr
    cases hr
  · intro r hr
    cases hr
  · intro h
    simp [createSlab] at h
  · intro i hi
    simp [createSlab] at hi
  · intro _
    rfl

theorem allocateSingle_eq_A (s : PoolSlab) (hns : s.isSingleArray = false)
    (hue : s.usedEnd < s.numNodes) :
    allocateSingle s = (some s.usedEnd,
      { isSingleArray := s.isSingleArray
        firstUnused := if s.firstUnused = s.usedEnd then s.firstUnused + 1 else s.firstUnused
        usedBegin := if s.usedBegin > s.usedEnd then s.usedEnd else s.usedBegin
        usedEnd := s.usedEnd + 1
        numNodes := s.numNodes
        allocated := s.allocated + 1
        alloc := fun j => if j = s.usedEnd then true else s.alloc j
        start := fun j => if j = s.usedEnd then true else s.start j }) := by
  unfold allocateSingle
  rw [if_neg (by simp [hns]), if_pos hue]
  dsimp only [setStartBit, markNodeAllocated]
  by_cases hfu : s.firstUnused = s.usedEnd <;> by_cases hub : s.usedBegin > s.usedEnd <;>
    simp [hfu, hub]

theorem allocateSingle_eq_B (s : PoolSlab) (hns : s.isSingleArray = false)
    (hue : ¬ s.usedEnd < s.numNodes) (hfu : s.firstUnused < s.numNodes) :
    allocateSingle s = (some s.firstUnused,
      { isSingleArray := s.isSingleArray
        firstUnused := scanAllocatedFrom
          (fun j => if j = s.firstUnused then true else s.alloc j) s.numNodes
          (s.firstUnused + 1)
        usedBegin := if s.usedBegin > s.firstUnused then s.firstUnused else s.usedBegin
        usedEnd := s.usedEnd
        numNodes := s.numNodes
        allocated := s.allocated + 1
        alloc := fun j => if j = s.firstUnused then true else s.alloc j
        start := fun j => if j = s.firstUnused then true else s.start j }) := by
  unfold allocateSingle
  rw [if_neg (by simp [hns]), if_neg hue, if_pos hfu]
  dsimp only [setStartBit, markNodeAllocated]
  by_cases hub : s.usedBegin > s.firstUnused <;> simp [hub]

theorem alloc_point_iff {ally : Nat → Bool} {runs : List Run} {a : Nat} {sz : Nat}
    (hsz : 0 < sz) (hone : sz = 1)
    (hold : ∀ i, ally i = true ↔ covers runs i) (i : Nat) :
    (if i = a then true else ally i) = true ↔ covers ((a, sz) :: runs) i := by
  subst hone
  by_cases hi : i = a
  · rw [if_pos hi]
    refine iff_of_true rfl ⟨(a, 1), List.mem_cons_self _ _, by omega, by omega⟩
  · rw [if_neg hi, hold i]
    constructor
    · rintro ⟨r, hr, h1, h2⟩
      exact ⟨r, List.mem_cons_of_mem _ hr, h1, h2⟩
    · rintro ⟨r, hr, h1, h2⟩
      rcases List.mem_cons.mp hr with rfl | hr
      · simp only at h1 h2
        omega
      · exact ⟨r, hr, h1, h2⟩

theorem alloc_range_iff {ally : Nat → Bool} {runs : List Run} {a sz : Nat}
    (hold : ∀ i, ally i = true ↔ covers runs i) (i : Nat) :
    (if a ≤ i ∧ i < a + sz then true else ally i) = true ↔
      covers ((a, sz) :: runs) i := by
  by_cases hi : a ≤ i ∧ i < a + sz
  · rw [if_pos hi]
    refine iff_of_true rfl ⟨(a, sz), List.mem_cons_self _ _, by omega, by omega⟩
  · rw [if_neg hi, hold i]
    constructor
    · rintro ⟨r, hr, h1, h2⟩
      exact ⟨r, List.mem_cons_of_mem _ hr, h1, h2⟩
    · rintro ⟨r, hr, h1, h2⟩
      rcases List.mem_cons.mp hr with rfl | hr
      · simp only at h1 h2
        omega
      · exact ⟨r, hr, h1, h2⟩

theorem start_point_iff {ss : Nat → Bool} {runs : List Run} {a sz : Nat}
    (hold : ∀ i, ss i = true ↔ ∃ r ∈ runs, r.1 = i) (i : Nat) :
    (if i = a then true else ss i) = true ↔ ∃ r ∈ (a, sz) :: runs, r.1 = i := by
  by_cases hi : i = a
  · rw [if_pos hi]
    exact iff_of_true rfl ⟨(a, sz), List.mem_cons_self _ _, hi.symm⟩
  · rw [if_neg hi, hold i]
    constructor
    · rintro ⟨r, hr, h1⟩
      exact ⟨r, List.mem_cons_of_mem _ hr, h1⟩
    · rintro ⟨r, hr, h1⟩
      rcases List.mem_cons.mp hr with rfl | hr
      · exact absurd h1.symm hi
      · exact ⟨r, hr, h1⟩

/-- Invariant preservation for allocateSingle: a successful single-node
allocation at `idx` adds the live run (idx, 1). -/
theorem allocateSingle_preserves (s : PoolSlab) (runs : List Run) (idx : Nat)
    (s' : PoolSlab) (hinv : SlabInv s runs)
    (h : allocateSingle s = (some idx, s')) : SlabInv s' ((idx, 1) :: runs) := by
  by_cases hue : s.usedEnd < s.numNodes
  · rw [allocateSingle_eq_A s hinv.notSingle hue] at h
    obtain ⟨h1, h2⟩ := Prod.mk.injEq .. ▸ h
    obtain rfl : idx = s.usedEnd := (Option.some.injEq .. ▸ h1).symm
    subst h2
    have hge := fun i hi => hinv.alloc_ge_ue (i := i) hi
    have hfule := hinv.fu_le
    refine ⟨hinv.notSingle, ?_, ?_, ?_, ?_, ?_, ?_, ?_, ?_, ?_, ?_⟩
    · show (if s.firstUnused = s.usedEnd then s.firstUnused + 1 else s.firstUnused) ≤
        s.usedEnd + 1
      split <;> omega
    · show s.usedEnd + 1 ≤ s.numNodes
      omega
    · exact fun i => alloc_point_iff (by omega) rfl hinv.alloc_iff i
    · exact fun i => start_point_iff hinv.start_iff i
    · intro r hr
      show 0 < r.2 ∧ r.1 + r.2 ≤ s.usedEnd + 1
      rcases List.mem_cons.mp hr with rfl | hr
      · simp only
        omega
      · have := hinv.runs_wf r hr
        omega
    · refine List.Pairwise.cons ?_ hinv.disj
      intro r hr
      have := (hinv.runs_wf r hr).2
      right
      simpa using by omega
    · intro r hr
      show (if s.usedBegin > s.usedEnd then s.usedEnd else s.usedBegin) ≤ r.1
      rcases List.mem_cons.mp hr with rfl | hr
      · simp only
        split <;> omega
      · have := hinv.ub_le r hr
        split <;> omega
    · intro _
      show (if s.usedEnd + 1 - 1 = s.usedEnd then true else s.alloc (s.usedEnd + 1 - 1))
        = true
      rw [if_pos (by omega)]
    · intro i hi
      show (if i = s.usedEnd then true else s.alloc i) = true
      simp only at hi
      by_cases heqi : i = s.usedEnd
      · rw [if_pos heqi]
      · rw [if_neg heqi]
        refine hinv.below_fu i ?_
        rcases Nat.decEq s.firstUnused s.usedEnd with hcase | hcase
        · rw [if_neg hcase] at hi
          exact hi
        · rw [if_pos hcase] at hi
          omega
    · intro hlt
      simp only at hlt ⊢
      by_cases hfu : s.firstUnused = s.usedEnd
      · rw [if_pos hfu] at hlt ⊢
        rw [if_neg (by omega)]
        exact hge _ (by omega)
      · rw [if_neg hfu] at hlt ⊢
        rw [if_neg (by omega)]
        exact hinv.fu_free (by omega)
  · have hfu : s.firstUnused < s.numNodes := by
      by_contra hcon
      unfold allocateSingle at h
      rw [if_neg (by simp [hinv.notSingle]), if_neg hue, if_neg hcon] at h
      exact Option.noConfusion (Prod.mk.injEq .. ▸ h).1
    have hueq : s.usedEnd = s.numNodes := by
      have := hinv.ue_le
      omega
    rw [allocateSingle_eq_B s hinv.notSingle hue hfu] at h
    obtain ⟨h1, h2⟩ := Prod.mk.injEq .. ▸ h
    obtain rfl : idx = s.firstUnused := (Option.some.injEq .. ▸ h1).symm
    subst h2
    obtain ⟨sp1, sp2, sp3, sp4, sp5⟩ := scanAllocatedFrom_spec
      (fun j => if j = s.firstUnused then true else s.alloc j) s.numNodes
      (s.firstUnused + 1)
    have hfu_free := hinv.fu_free hfu
    have hnc : ¬ covers runs s.firstUnused := by
      intro hc
      have := (hinv.alloc_iff s.firstUnused).mpr hc
      rw [hfu_free] at this
      exact Bool.noConfusion this
    refine ⟨hinv.notSingle, ?_, hinv.ue_le, ?_, ?_, ?_, ?_, ?_, ?_, ?_, ?_⟩
    · show scanAllocatedFrom _ s.numNodes (s.firstUnused + 1) ≤ s.usedEnd
      rw [hueq]
      exact sp4 (by omega)
    · exact fun i => alloc_point_iff (by omega) rfl hinv.alloc_iff i
    · exact fun i => start_point_iff hinv.start_iff i
    · intro r hr
      show 0 < r.2 ∧ r.1 + r.2 ≤ s.usedEnd
      rcases List.mem_cons.mp hr with rfl | hr
      · simp only
        omega
      · exact hinv.runs_wf r hr
    · refine List.Pairwise.cons ?_ hinv.disj
      intro r hr
      have hw := hinv.runs_wf r hr
      show s.firstUnused + 1 ≤ r.1 ∨ r.1 + r.2 ≤ s.firstUnused
      by_cases hc : r.1 ≤ s.firstUnused ∧ s.firstUnused < r.1 + r.2
      · exact absurd ⟨r, hr, hc.1, hc.2⟩ hnc
      · push_neg at hc
        by_cases hle : r.1 ≤ s.firstUnused
        · right
          have := hc hle
          omega
        · left
          omega
    · intro r hr
      show (if s.usedBegin > s.firstUnused then s.firstUnused else s.usedBegin) ≤ r.1
      rcases List.mem_cons.mp hr with rfl | hr
      · simp only
        split <;> omega
      · have := hinv.ub_le r hr
        split <;> omega
    · intro hpos
      show (if s.usedEnd - 1 = s.firstUnused then true else s.alloc (s.usedEnd - 1)) = true
      by_cases heq : s.usedEnd - 1 = s.firstUnused
      · rw [if_pos heq]
      · rw [if_neg heq]
        exact hinv.ue_last hpos
    · intro i hi
      have hi2 : i < scanAllocatedFrom
          (fun j => if j = s.firstUnused then true else s.alloc j) s.numNodes
          (s.firstUnused + 1) := hi
      show (if i = s.firstUnused then true else s.alloc i) = true
      by_cases heq : i = s.firstUnused
      · rw [if_pos heq]
      · rw [if_neg heq]
        rcases Nat.lt_or_ge i s.firstUnused with hlt | hge2
        · exact hinv.below_fu i hlt
        · have hsp := sp2 i (by omega) hi2
          simp only [if_neg heq] at hsp
          exact hsp
    · intro hlt
      exact sp3 hlt

theorem allocateMultiple_eq_A (s : PoolSlab) (size : Nat) (hns : s.isSingleArray = false)
    (hfit : s.usedEnd + size ≤ s.numNodes) :
    allocateMultiple s size = (some s.usedEnd,
      { isSingleArray := s.isSingleArray
        firstUnused := if s.firstUnused = s.usedEnd then s.firstUnused + size
          else s.firstUnused
        usedBegin := if s.usedBegin > s.usedEnd then s.usedEnd else s.usedBegin
        usedEnd := s.usedEnd + size
        numNodes := s.numNodes
        allocated := s.allocated + size
        alloc := fun j => if s.usedEnd ≤ j ∧ j < s.usedEnd + size then true else s.alloc j
        start := fun j => if j = s.usedEnd then true else s.start j }) := by
  unfold allocateMultiple
  rw [if_neg (by simp [hns]), if_pos hfit]
  dsimp only [markRange, setStartBit]
  by_cases hfu : s.firstUnused = s.usedEnd <;> by_cases hub : s.usedBegin > s.usedEnd <;>
    simp [hfu, hub]

theorem allocateMultipleA_preserves (s : PoolSlab) (runs : List Run) (size : Nat)
    (hsz : 0 < size) (hinv : SlabInv s runs) (hfit : s.usedEnd + size ≤ s.numNodes)
    (s' : PoolSlab) (h : allocateMultiple s size = (some s.usedEnd, s')) :
    SlabInv s' ((s.usedEnd, size) :: runs) := by
  rw [allocateMultiple_eq_A s size hinv.notSingle hfit] at h
  obtain h2 := (Prod.mk.injEq .. ▸ h).2
  subst h2
  have hfule := hinv.fu_le
  refine ⟨hinv.notSingle, ?_, ?_, ?_, ?_, ?_, ?_, ?_, ?_, ?_, ?_⟩
  · show (if s.firstUnused = s.usedEnd then s.firstUnused + size else s.firstUnused) ≤
      s.usedEnd + size
    split <;> omega
  · show s.usedEnd + size ≤ s.numNodes
    omega
  · exact fun i => alloc_range_iff hinv.alloc_iff i
  · exact fun i => start_point_iff hinv.start_iff i
  · intro r hr
    show 0 < r.2 ∧ r.1 + r.2 ≤ s.usedEnd + size
    rcases List.mem_cons.mp hr with rfl | hr
    · simp only
      omega
    · have := hinv.runs_wf r hr
      omega
  · refine List.Pairwise.cons ?_ hinv.disj
    intro r hr
    have := (hinv.runs_wf r hr).2
    right
    simpa using by omega
  · intro r hr
    show (if s.usedBegin > s.usedEnd then s.usedEnd else s.usedBegin) ≤ r.1
    rcases List.mem_cons.mp hr with rfl | hr
    · simp only
      split <;> omega
    · have := hinv.ub_le r hr
      split <;> omega
  · intro _
    show (if s.usedEnd ≤ s.usedEnd + size - 1 ∧ s.usedEnd + size - 1 < s.usedEnd + size
      then true else s.alloc (s.usedEnd + size - 1)) = true
    rw [if_pos (by omega)]
  · intro i hi
    show (if s.usedEnd ≤ i ∧ i < s.usedEnd + size then true else s.alloc i) = true
    simp only at hi
    by_cases hr : s.usedEnd ≤ i ∧ i < s.usedEnd + size
    · rw [if_pos hr]
    · rw [if_neg hr]
      refine hinv.below_fu i ?_
      rcases Nat.decEq s.firstUnused s.usedEnd with hcase | hcase
      · rw [if_neg hcase] at hi
        exact hi
      · rw [if_pos hcase] at hi
        omega
  · intro hlt
    simp only at hlt ⊢
    by_cases hfu : s.firstUnused = s.usedEnd
    · rw [if_pos hfu] at hlt ⊢
      rw [if_neg (by omega)]
      exact hinv.alloc_ge_ue (by omega)
    · rw [if_neg hfu] at hlt ⊢
      rw [if_neg (by omega)]
      exact hinv.fu_free (by omega)

theorem claimRun_inv (s : PoolSlab) (runs : List Run) (size idx fuNew ubNew : Nat)
    (hinv : SlabInv s runs) (hsz : 0 < size)
    (hallfree : ∀ j, idx ≤ j → j < idx + size → s.alloc j = false)
    (hrun_le : idx + size ≤ s.usedEnd)
    (hfu : fuNew ≤ s.usedEnd)
    (hbelow : ∀ i, i < fuNew →
      (if idx ≤ i ∧ i < idx + size then true else s.alloc i) = true)
    (hfufree : fuNew < s.numNodes →
      (if idx ≤ fuNew ∧ fuNew < idx + size then true else s.alloc fuNew) = false)
    (hubi : ubNew ≤ idx) (hubr : ∀ r ∈ runs, ubNew ≤ r.1) :
    SlabInv
      { isSingleArray := s.isSingleArray
        firstUnused := fuNew
        usedBegin := ubNew
        usedEnd := s.usedEnd
        numNodes := s.numNodes
        allocated := s.allocated + size
        alloc := fun j => if idx ≤ j ∧ j < idx + size then true else s.alloc j
        start := fun j => if j = idx then true else s.start j }
      ((idx, size) :: runs) := by
  have hcov : ∀ r ∈ runs, idx + size ≤ r.1 ∨ r.1 + r.2 ≤ idx := by
    intro r hr
    have hw := hinv.runs_wf r hr
    by_contra hcon
    push_neg at hcon
    obtain ⟨hc1, hc2⟩ := hcon
    rcases le_total idx r.1 with hc | hc
    · have := (hinv.alloc_iff r.1).mpr ⟨r, hr, le_refl _, by omega⟩
      rw [hallfree r.1 hc hc1] at this
      exact Bool.noConfusion this
    · have := (hinv.alloc_iff idx).mpr ⟨r, hr, hc, by omega⟩
      rw [hallfree idx (le_refl _) (by omega)] at this
      exact Bool.noConfusion this
  refine ⟨hinv.notSingle, hfu, hinv.ue_le, ?_, ?_, ?_, ?_, ?_, ?_, hbelow, hfufree⟩
  · exact fun i => alloc_range_iff hinv.alloc_iff i
  · exact fun i => start_point_iff hinv.start_iff i
  · intro r hr
    show 0 < r.2 ∧ r.1 + r.2 ≤ s.usedEnd
    rcases List.mem_cons.mp hr with rfl | hr
    · simp only
      omega
    · exact hinv.runs_wf r hr
  · exact List.Pairwise.cons (fun r hr => hcov r hr) hinv.disj
  · intro r hr
    show ubNew ≤ r.1
    rcases List.mem_cons.mp hr with rfl | hr
    · exact hubi
    · exact hubr r hr
  · intro hpos
    show (if idx ≤ s.usedEnd - 1 ∧ s.usedEnd - 1 < idx + size then true
      else s.alloc (s.usedEnd - 1)) = true
    by_cases hin : idx ≤ s.usedEnd - 1 ∧ s.usedEnd - 1 < idx + size
    · rw [if_pos hin]
    · rw [if_neg hin]
      exact hinv.ue_last hpos

theorem allocMultScan_preserves (s : PoolSlab) (runs : List Run) (size : Nat)
    (hsz : 0 < size) (hinv : SlabInv s runs)
    (hnofit : ¬ s.usedEnd + size ≤ s.numNodes) :
    ∀ idx idx' s', (idx + size ≤ s.numNodes → s.alloc idx = false) →
      s.firstUnused ≤ idx →
      allocMultScan s size idx = (some idx', s') →
      SlabInv s' ((idx', size) :: runs) := by
  have key : ∀ k idx idx' s', s.numNodes + 1 - idx ≤ k →
      (idx + size ≤ s.numNodes → s.alloc idx = false) →
      s.firstUnused ≤ idx →
      allocMultScan s size idx = (some idx', s') →
      SlabInv s' ((idx', size) :: runs) := by
    intro k
    induction k with
    | zero =>
        intro idx idx' s' hk hfree hfule hrec
        unfold allocMultScan at hrec
        rw [dif_neg (by omega)] at hrec
        exact Option.noConfusion (Prod.mk.injEq .. ▸ hrec).1
    | succ k ih =>
        intro idx idx' s' hk hfree hfule hrec
        unfold allocMultScan at hrec
        by_cases h : idx + size ≤ s.numNodes
        · rw [dif_pos h] at hrec
          by_cases hlast : firstAllocated s.alloc (idx + 1) (idx + size) = idx + size
          · rw [dif_pos hlast] at hrec
            dsimp only [markRange, setStartBit] at hrec
            have hallfree : ∀ j, idx ≤ j → j < idx + size → s.alloc j = false := by
              intro j hj1 hj2
              rcases Nat.eq_or_lt_of_le hj1 with rfl | hj1
              · exact hfree h
              · rcases firstAllocated_spec s.alloc (idx + size) (idx + 1) with
                  ⟨_, hfr⟩ | ⟨_, hlt2, _, _⟩
                · exact hfr j hj1 hj2
                · omega
            have hidxlt : idx < s.usedEnd := by omega
            have hrun_le : idx + size ≤ s.usedEnd := by
              by_contra hcon
              have h1 : s.alloc (s.usedEnd - 1) = false :=
                hallfree (s.usedEnd - 1) (by omega) (by omega)
              have h2 := hinv.ue_last (by omega)
              rw [h1] at h2
              exact Bool.noConfusion h2
            by_cases hfueq : idx = s.firstUnused
            · rw [if_pos hfueq] at hrec
              obtain ⟨sp1, sp2, sp3, sp4, sp5⟩ := scanAllocatedFrom_spec
                (fun j => if idx ≤ j ∧ j < idx + size then true else s.alloc j)
                s.usedEnd (s.firstUnused + size)
              set iscan := scanAllocatedFrom
                (fun j => if idx ≤ j ∧ j < idx + size then true else s.alloc j)
                s.usedEnd (s.firstUnused + size) with hiscan
              have hscan_le : iscan ≤ s.usedEnd := sp4 (by omega)
              have halloc2 : (if idx ≤ iscan ∧ iscan < idx + size then true
                  else s.alloc iscan) = false := by
                rcases Nat.lt_or_ge iscan s.usedEnd with hlt2 | hge2
                · have := sp3 hlt2
                  simpa using this
                · have heq2 : iscan = s.usedEnd := by omega
                  rw [if_neg (by omega), heq2]
                  exact hinv.alloc_ge_ue (le_refl _)
              rw [if_neg (show ¬((if idx ≤ iscan ∧ iscan < idx + size then true
                else s.alloc iscan) = true) by
                  rw [halloc2]
                  exact Bool.false_ne_true)] at hrec
              dsimp only at hrec
              have hbelow : ∀ i, i < iscan →
                  (if idx ≤ i ∧ i < idx + size then true else s.alloc i) = true := by
                intro i hi
                by_cases hin : idx ≤ i ∧ i < idx + size
                · rw [if_pos hin]
                · rw [if_neg hin]
                  rcases Nat.lt_or_ge i idx with hlt2 | hge2
                  · exact hinv.below_fu i (by omega)
                  · have hj := sp2 i (by omega) hi
                    simpa [hin] using hj
              by_cases hub : s.usedBegin > idx
              · rw [if_pos hub] at hrec
                dsimp only at hrec
                obtain ⟨h1, h2⟩ := Prod.mk.injEq .. ▸ hrec
                obtain rfl : idx = idx' := Option.some.injEq .. ▸ h1
                subst h2
                exact claimRun_inv s runs size idx iscan idx hinv hsz hallfree hrun_le
                  hscan_le hbelow (fun _ => halloc2) (le_refl idx)
                  (fun r hr => by have := hinv.ub_le r hr; omega)
              · rw [if_neg hub] at hrec
                dsimp only at hrec
                obtain ⟨h1, h2⟩ := Prod.mk.injEq .. ▸ hrec
                obtain rfl : idx = idx' := Option.some.injEq .. ▸ h1
                subst h2
                exact claimRun_inv s runs size idx iscan s.usedBegin hinv hsz hallfree
                  hrun_le hscan_le hbelow (fun _ => halloc2) (by omega) hinv.ub_le
            · rw [if_neg hfueq] at hrec
              dsimp only at hrec
              have hfult : s.firstUnused < idx := by omega
              have hbelow : ∀ i, i < s.firstUnused →
                  (if idx ≤ i ∧ i < idx + size then true else s.alloc i) = true := by
                intro i hi
                rw [if_neg (by omega)]
                exact hinv.below_fu i hi
              have hfufree : s.firstUnused < s.numNodes →
                  (if idx ≤ s.firstUnused ∧ s.firstUnused < idx + size then true
                    else s.alloc s.firstUnused) = false := by
                intro hlt2
                rw [if_neg (by omega)]
                exact hinv.fu_free hlt2
              by_cases hub : s.usedBegin > idx
              · rw [if_pos hub] at hrec
                dsimp only at hrec
                obtain ⟨h1, h2⟩ := Prod.mk.injEq .. ▸ hrec
                obtain rfl : idx = idx' := Option.some.injEq .. ▸ h1
                subst h2
                exact claimRun_inv s runs size idx s.firstUnused idx hinv hsz hallfree
                  hrun_le hinv.fu_le hbelow hfufree (le_refl idx)
                  (fun r hr => by have := hinv.ub_le r hr; omega)
              · rw [if_neg hub] at hrec
                dsimp only at hrec
                obtain ⟨h1, h2⟩ := Prod.mk.injEq .. ▸ hrec
                obtain rfl : idx = idx' := Option.some.injEq .. ▸ h1
                subst h2
                exact claimRun_inv s runs size idx s.firstUnused s.usedBegin hinv hsz
                  hallfree hrun_le hinv.fu_le hbelow hfufree (by omega) hinv.ub_le
          · rw [dif_neg hlast] at hrec
            rcases firstAllocated_spec s.alloc (idx + size) (idx + 1) with
              ⟨heqs, _⟩ | ⟨hge2, _, _, _⟩
            · exact absurd heqs hlast
            · obtain ⟨hsk1, hsk2⟩ := skipAllocated_spec s.alloc s.numNodes size
                (firstAllocated s.alloc (idx + 1) (idx + size))
              exact ih (skipAllocated s.alloc s.numNodes size
                  (firstAllocated s.alloc (idx + 1) (idx + size))) idx' s'
                (by omega) hsk2 (by omega) hrec
        · rw [dif_neg h] at hrec
          exact Option.noConfusion (Prod.mk.injEq .. ▸ hrec).1
  intro idx idx' s' hfree hfule hrec
  exact key (s.numNodes + 1 - idx) idx idx' s' (le_refl _) hfree hfule hrec

/-- Invariant preservation for allocateMultiple: a successful allocation of
a nonempty contiguous run at `idx` adds the live run (idx, size). -/
theorem allocateMultiple_preserves (s : PoolSlab) (runs : List Run) (size idx : Nat)
    (s' : PoolSlab) (hsz : 0 < size) (hinv : SlabInv s runs)
    (h : allocateMultiple s size = (some idx, s')) : SlabInv s' ((idx, size) :: runs) := by
  by_cases hfit : s.usedEnd + size ≤ s.numNodes
  · rw [allocateMultiple_eq_A s size hinv.notSingle hfit] at h
    obtain ⟨h1, h2⟩ := Prod.mk.injEq .. ▸ h
    obtain rfl : s.usedEnd = idx := Option.some.injEq .. ▸ h1
    exact allocateMultipleA_preserves s runs size hsz hinv hfit s'
      (by rw [allocateMultiple_eq_A s size hinv.notSingle hfit, h2])
  · unfold allocateMultiple at h
    rw [if_neg (by simp [hinv.notSingle]), if_neg hfit] at h
    refine allocMultScan_preserves s runs size hsz hinv hfit s.firstUnused idx s' ?_
      (le_refl _) h
    intro hle
    exact hinv.fu_free (by omega)

theorem allocateSingle_none (s s' : PoolSlab) (h : allocateSingle s = (none, s')) :
    s' = s := by
  unfold allocateSingle at h
  by_cases h0 : s.isSingleArray
  · rw [if_pos h0] at h
    exact ((Prod.mk.injEq .. ▸ h).2).symm
  · rw [if_neg h0] at h
    by_cases h1 : s.usedEnd < s.numNodes
    · rw [if_pos h1] at h
      exact Option.noConfusion (Prod.mk.injEq .. ▸ h).1
    · rw [if_neg h1] at h
      by_cases h2 : s.firstUnused < s.numNodes
      · rw [if_pos h2] at h
        exact Option.noConfusion (Prod.mk.injEq .. ▸ h).1
      · rw [if_neg h2] at h
        exact ((Prod.mk.injEq .. ▸ h).2).symm

theorem allocMultScan_none (s : PoolSlab) (size : Nat) :
    ∀ idx s', allocMultScan s size idx = (none, s') → s' = s := by
  have key : ∀ k idx s', s.numNodes + 1 - idx ≤ k →
      allocMultScan s size idx = (none, s') → s' = s := by
    intro k
    induction k with
    | zero =>
        intro idx s' hk h
        unfold allocMultScan at h
        rw [dif_neg (by omega)] at h
        exact ((Prod.mk.injEq .. ▸ h).2).symm
    | succ k ih =>
        intro idx s' hk h
        unfold allocMultScan at h
        by_cases hc : idx + size ≤ s.numNodes
        · rw [dif_pos hc] at h
          by_cases hlast : firstAllocated s.alloc (idx + 1) (idx + size) = idx + size
          · rw [dif_pos hlast] at h
            exact Option.noConfusion (Prod.mk.injEq .. ▸ h).1
          · rw [dif_neg hlast] at h
            rcases firstAllocated_spec s.alloc (idx + size) (idx + 1) with
              ⟨heqs, _⟩ | ⟨hge2, _, _, _⟩
            · exact absurd heqs hlast
            · obtain ⟨hsk1, _⟩ := skipAllocated_spec s.alloc s.numNodes size
                (firstAllocated s.alloc (idx + 1) (idx + size))
              exact ih (skipAllocated s.alloc s.numNodes size
                (firstAllocated s.alloc (idx + 1) (idx + size))) s' (by omega) h
        · rw [dif_neg hc] at h
          exact ((Prod.mk.injEq .. ▸ h).2).symm
  intro idx s' h
  exact key (s.numNodes + 1 - idx) idx s' (le_refl _) h

theorem allocateMultiple_none (s s' : PoolSlab) (size : Nat)
    (h : allocateMultiple s size = (none, s')) : s' = s := by
  unfold allocateMultiple at h
  by_cases h0 : s.isSingleArray
  · rw [if_pos h0] at h
    exact ((Prod.mk.injEq .. ▸ h).2).symm
  · rw [if_neg h0] at h
    by_cases h1 : s.usedEnd + size ≤ s.numNodes
    · rw [if_pos h1] at h
      exact Option.noConfusion (Prod.mk.injEq .. ▸ h).1
    · rw [if_neg h1] at h
      exact allocMultScan_none s size s.firstUnused s' h

theorem runEnd_eq (s : PoolSlab) (i m : Nat) (him : i ≤ m)
    (hmid : ∀ j, i ≤ j → j < m →
      j < s.usedEnd ∧ s.start j = false ∧ s.alloc j = true)
    (hstop : s.usedEnd ≤ m ∨ s.start m = true ∨ s.alloc m = false) :
    runEnd s i = m := by
  have key : ∀ k i, m - i ≤ k → i ≤ m →
      (∀ j, i ≤ j → j < m → j < s.usedEnd ∧ s.start j = false ∧ s.alloc j = true) →
      runEnd s i = m := by
    intro k
    induction k with
    | zero =>
        intro i hk hle hmid2
        have heq : i = m := by omega
        subst heq
        unfold runEnd
        by_cases hlt : i < s.usedEnd
        · rw [dif_pos hlt]
          rw [if_neg ?_]
          rcases hstop with hs | hs | hs
          · omega
          · intro hcon
            rw [hs] at hcon
            exact Bool.noConfusion hcon.1
          · intro hcon
            rw [hs] at hcon
            exact Bool.noConfusion hcon.2
        · rw [dif_neg hlt]
    | succ k ih =>
        intro i hk hle hmid2
        rcases Nat.eq_or_lt_of_le hle with heq | hlt
        · subst heq
          unfold runEnd
          by_cases hlt2 : i < s.usedEnd
          · rw [dif_pos hlt2]
            rw [if_neg ?_]
            rcases hstop with hs | hs | hs
            · omega
            · intro hcon
              rw [hs] at hcon
              exact Bool.noConfusion hcon.1
            · intro hcon
              rw [hs] at hcon
              exact Bool.noConfusion hcon.2
          · rw [dif_neg hlt2]
        · obtain ⟨hj1, hj2, hj3⟩ := hmid2 i (le_refl i) hlt
          unfold runEnd
          rw [dif_pos hj1, if_pos ⟨hj2, hj3⟩]
          exact ih (i + 1) (by omega) (by omega)
            (fun j ha hb => hmid2 j (by omega) hb)
  exact key (m - i) i (le_refl _) him hmid

theorem lastNodeAllocated_spec (f : Nat → Bool) (m : Nat) :
    (lastNodeAllocated f m = 0 ∧ ∀ j, j ≤ m → f j = false) ∨
      (0 < lastNodeAllocated f m ∧ lastNodeAllocated f m ≤ m + 1 ∧
        f (lastNodeAllocated f m - 1) = true ∧
        ∀ j, lastNodeAllocated f m ≤ j → j ≤ m → f j = false) := by
  induction m with
  | zero =>
      by_cases h0 : f 0
      · right
        unfold lastNodeAllocated
        rw [if_pos h0]
        exact ⟨by omega, by omega, h0, fun j h1 h2 => by omega⟩
      · left
        unfold lastNodeAllocated
        rw [if_neg h0]
        refine ⟨rfl, ?_⟩
        intro j hj
        have : j = 0 := by omega
        subst this
        simpa using h0
  | succ m ih =>
      by_cases hm : f (m + 1)
      · right
        unfold lastNodeAllocated
        rw [if_pos hm]
        exact ⟨by omega, by omega, hm, fun j h1 h2 => by omega⟩
      · have heq : lastNodeAllocated f (m + 1) = lastNodeAllocated f m := by
          show (if f (m + 1) then m + 2 else lastNodeAllocated f m) = lastNodeAllocated f m
          rw [if_neg hm]
        rcases ih with ⟨h1, h2⟩ | ⟨h1, h2, h3, h4⟩
        · left
          rw [heq, h1]
          refine ⟨rfl, ?_⟩
          intro j hj
          rcases Nat.lt_or_ge j (m + 1) with hl | hg
          · exact h2 j (by omega)
          · have : j = m + 1 := by omega
            subst this
            simpa using hm
        · right
          rw [heq]
          refine ⟨h1, by omega, h3, ?_⟩
          intro j hj1 hj2
          rcases Nat.lt_or_ge j (m + 1) with hl | hg
          · exact h4 j hj1 (by omega)
          · have : j = m + 1 := by omega
            subst this
            simpa using hm

/-- Removal of the run starting at `idx` from the live set. -/
def removeRun (runs : List Run) (idx : Nat) : List Run :=
  runs.filter (fun r => !decide (r.1 = idx))

theorem mem_removeRun {runs : List Run} {idx : Nat} {r : Run} :
    r ∈ removeRun runs idx ↔ r ∈ runs ∧ r.1 ≠ idx := by
  unfold removeRun
  rw [List.mem_filter]
  simp

theorem dropRun_inv (s : PoolSlab) (runs : List Run) (idx sz : Nat)
    (hinv : SlabInv s runs) (hr0 : (idx, sz) ∈ runs)
    (fuN ubN ueN aN : Nat)
    (hfuue : fuN ≤ ueN) (huen : ueN ≤ s.numNodes)
    (hwf : ∀ r ∈ runs, r.1 ≠ idx → r.1 + r.2 ≤ ueN)
    (hub : ∀ r ∈ runs, r.1 ≠ idx → ubN ≤ r.1)
    (hlast : 0 < ueN → (if idx + 1 ≤ ueN - 1 ∧ ueN - 1 < idx + sz then false
        else if ueN - 1 = idx then false else s.alloc (ueN - 1)) = true)
    (hbelow : ∀ i, i < fuN → (if idx + 1 ≤ i ∧ i < idx + sz then false
        else if i = idx then false else s.alloc i) = true)
    (hfufree : fuN < s.numNodes → (if idx + 1 ≤ fuN ∧ fuN < idx + sz then false
        else if fuN = idx then false else s.alloc fuN) = false) :
    SlabInv
      { isSingleArray := s.isSingleArray
        firstUnused := fuN
        usedBegin := ubN
        usedEnd := ueN
        numNodes := s.numNodes
        allocated := aN
        alloc := fun j => if idx + 1 ≤ j ∧ j < idx + sz then false
          else if j = idx then false else s.alloc j
        start := fun j => if j = idx then false else s.start j }
      (removeRun runs idx) := by
  obtain ⟨hszpos, hendle⟩ := hinv.runs_wf (idx, sz) hr0
  simp only at hszpos hendle
  have hne_r0 : ∀ r ∈ runs, r.1 ≠ idx → r ≠ (idx, sz) := by
    intro r hr hne hcon
    rw [hcon] at hne
    exact hne rfl
  have hdisj_r0 : ∀ r ∈ runs, r.1 ≠ idx → idx + sz ≤ r.1 ∨ r.1 + r.2 ≤ idx := by
    intro r hr hne
    have hd := hinv.disj.forall runDisj_symm hr0 hr (fun hcon => hne_r0 r hr hne hcon.symm)
    unfold RunDisj at hd
    simp at hd
    exact hd
  refine ⟨hinv.notSingle, hfuue, huen, ?_, ?_, ?_, ?_, ?_, hlast, hbelow, hfufree⟩
  · intro i
    show (if idx + 1 ≤ i ∧ i < idx + sz then false
      else if i = idx then false else s.alloc i) = true ↔ covers (removeRun runs idx) i
    by_cases hin : idx ≤ i ∧ i < idx + sz
    · have hval : (if idx + 1 ≤ i ∧ i < idx + sz then false
          else if i = idx then false else s.alloc i) = false := by
        by_cases h1 : idx + 1 ≤ i ∧ i < idx + sz
        · rw [if_pos h1]
        · rw [if_neg h1, if_pos (by omega)]
      rw [hval]
      refine iff_of_false Bool.false_ne_true ?_
      rintro ⟨r, hr, hc1, hc2⟩
      obtain ⟨hrmem, hrne⟩ := mem_removeRun.mp hr
      have := hdisj_r0 r hrmem hrne
      omega
    · have hval : (if idx + 1 ≤ i ∧ i < idx + sz then false
          else if i = idx then false else s.alloc i) = s.alloc i := by
        rw [if_neg (by omega), if_neg (by omega)]
      rw [hval, hinv.alloc_iff i]
      constructor
      · rintro ⟨r, hr, hc1, hc2⟩
        have hrne : r.1 ≠ idx := by
          intro hcon
          have : r = (idx, sz) := hinv.start_unique hr hr0 (by simp [hcon])
          rw [this] at hc1 hc2
          simp only at hc1 hc2
          omega
        exact ⟨r, mem_removeRun.mpr ⟨hr, hrne⟩, hc1, hc2⟩
      · rintro ⟨r, hr, hc1, hc2⟩
        exact ⟨r, (mem_removeRun.mp hr).1, hc1, hc2⟩
  · intro i
    show (if i = idx then false else s.start i) = true ↔ ∃ r ∈ removeRun runs idx, r.1 = i
    by_cases hi : i = idx
    · rw [if_pos hi]
      refine iff_of_false Bool.false_ne_true ?_
      rintro ⟨r, hr, hc⟩
      obtain ⟨hrmem, hrne⟩ := mem_removeRun.mp hr
      exact hrne (by omega)
    · rw [if_neg hi, hinv.start_iff i]
      constructor
      · rintro ⟨r, hr, hc⟩
        exact ⟨r, mem_removeRun.mpr ⟨hr, by omega⟩, hc⟩
      · rintro ⟨r, hr, hc⟩
        exact ⟨r, (mem_removeRun.mp hr).1, hc⟩
  · intro r hr
    obtain ⟨hrmem, hrne⟩ := mem_removeRun.mp hr
    exact ⟨(hinv.runs_wf r hrmem).1, hwf r hrmem hrne⟩
  · exact List.Pairwise.sublist (List.filter_sublist runs) hinv.disj
  · intro r hr
    obtain ⟨hrmem, hrne⟩ := mem_removeRun.mp hr
    exact hub r hrmem hrne

/-- Invariant preservation for freeElement: freeing an unallocated node is a
no-op, and freeing the start of a live run removes exactly that run from
the live set. -/
theorem freeElement_preserves (s : PoolSlab) (runs : List Run) (idx : Nat)
    (s' : PoolSlab) (hinv : SlabInv s runs) (h : freeElement s idx = some s') :
    SlabInv s' (removeRun runs idx) := by
  by_cases halloc : s.alloc idx = false
  · unfold freeElement at h
    rw [if_pos halloc] at h
    obtain rfl : s = s' := Option.some.injEq .. ▸ h
    have hrm : removeRun runs idx = runs := by
      unfold removeRun
      apply List.filter_eq_self.mpr
      intro r hr
      simp only [Bool.not_eq_true', decide_eq_false_iff_not]
      intro hcon
      have hw := hinv.runs_wf r hr
      have hcov : covers runs idx := ⟨r, hr, by omega, by omega⟩
      rw [(hinv.alloc_iff idx).mpr hcov] at halloc
      exact Bool.noConfusion halloc
    rw [hrm]
    exact hinv
  · unfold freeElement at h
    rw [if_neg halloc] at h
    dsimp only [markNodeFree, clearStartBit, freeRange] at h
    by_cases hstart : s.start idx = false
    · rw [if_pos hstart] at h
      exact Option.noConfusion h
    · rw [if_neg hstart] at h
      have hstart' : s.start idx = true := by
        revert hstart
        cases s.start idx <;> simp
      have halloc' : s.alloc idx = true := by
        revert halloc
        cases s.alloc idx <;> simp
      obtain ⟨r0, hr0m, hr0s⟩ := (hinv.start_iff idx).mp hstart'
      obtain ⟨i0, sz⟩ := r0
      simp only at hr0s
      subst hr0s
      obtain ⟨hszpos, hendle⟩ := hinv.runs_wf (i0, sz) hr0m
      simp only at hszpos hendle
      have hidxlt : i0 < s.usedEnd := by omega
      have hdisj : ∀ r ∈ runs, r.1 ≠ i0 → i0 + sz ≤ r.1 ∨ r.1 + r.2 ≤ i0 := by
        intro r hr hne
        have hnev : r ≠ (i0, sz) := by
          intro hc
          rw [hc] at hne
          exact hne rfl
        have hd := hinv.disj.forall runDisj_symm hr0m hr (fun hc => hnev hc.symm)
        unfold RunDisj at hd
        simp at hd
        exact hd
      have hee : runEnd
          { isSingleArray := s.isSingleArray, firstUnused := s.firstUnused,
            usedBegin := s.usedBegin, usedEnd := s.usedEnd, numNodes := s.numNodes,
            allocated := s.allocated - 1,
            alloc := fun j => if j = i0 then false else s.alloc j,
            start := fun j => if j = i0 then false else s.start j }
          (i0 + 1) = i0 + sz := by
        apply runEnd_eq
        · omega
        · intro j hj1 hj2
          refine ⟨?_, ?_, ?_⟩
          · show j < s.usedEnd
            omega
          · show (if j = i0 then false else s.start j) = false
            rw [if_neg (by omega)]
            cases hbj : s.start j with
            | false => rfl
            | true =>
                exfalso
                obtain ⟨r1, hr1m, hr1s⟩ := (hinv.start_iff j).mp hbj
                have hw1 := hinv.runs_wf r1 hr1m
                have hd := hdisj r1 hr1m (by omega)
                omega
          · show (if j = i0 then false else s.alloc j) = true
            rw [if_neg (by omega)]
            exact (hinv.alloc_iff j).mpr ⟨(i0, sz), hr0m, by simp only; omega,
              by simp only; omega⟩
        · rcases Nat.eq_or_lt_of_le hendle with heq | hlt
          · left
            show s.usedEnd ≤ i0 + sz
            omega
          · cases hbm : s.alloc (i0 + sz) with
            | false =>
                right
                right
                show (if i0 + sz = i0 then false else s.alloc (i0 + sz)) = false
                rw [if_neg (by omega)]
                exact hbm
            | true =>
                obtain ⟨r2, hr2m, hc1, hc2⟩ := (hinv.alloc_iff (i0 + sz)).mp hbm
                have hw2 := hinv.runs_wf r2 hr2m
                have hne2 : r2.1 ≠ i0 := by
                  intro hc
                  have : r2 = (i0, sz) := hinv.start_unique hr2m hr0m (by simp only; omega)
                  rw [this] at hc1 hc2
                  simp only at hc1 hc2
                  omega
                have hd := hdisj r2 hr2m hne2
                have hr2start : r2.1 = i0 + sz := by omega
                right
                left
                show (if i0 + sz = i0 then false else s.start (i0 + sz)) = true
                rw [if_neg (by omega)]
                exact (hinv.start_iff (i0 + sz)).mpr ⟨r2, hr2m, hr2start⟩
      rw [hee] at h
      have hfule := hinv.fu_le
      have huele := hinv.ue_le
      have hub0 := hinv.ub_le (i0, sz) hr0m
      simp only at hub0
      by_cases hfu4 : i0 < s.firstUnused
      · rw [if_pos hfu4] at h
        dsimp only at h
        by_cases hub5 : i0 = s.usedBegin
        · rw [if_pos hub5] at h
          dsimp only at h
          by_cases heeue : i0 + sz = s.usedEnd
          · rw [if_pos heeue, if_pos heeue] at h
            obtain rfl := Option.some.injEq .. ▸ h
            have hempty : ∀ r ∈ runs, r.1 ≠ i0 → False := by
              intro r hr hne
              have hd := hdisj r hr hne
              have hw := hinv.runs_wf r hr
              have := hinv.ub_le r hr
              omega
            refine dropRun_inv s runs i0 sz hinv hr0m 0 0 0 _ (le_refl 0)
              (Nat.zero_le _) (fun r hr hne => absurd (hempty r hr hne) not_false)
              (fun r hr hne => absurd (hempty r hr hne) not_false)
              (fun h0 => absurd h0 (lt_irrefl 0))
              (fun i hi => absurd hi (Nat.not_lt_zero i)) ?_
            intro hn
            by_cases hidx0 : i0 = 0
            · rw [if_neg (by omega), if_pos hidx0.symm]
            · rw [if_neg (by omega), if_neg (by omega)]
              cases hb0 : s.alloc 0 with
              | false => rfl
              | true =>
                  exfalso
                  obtain ⟨r, hr, hc1, hc2⟩ := (hinv.alloc_iff 0).mp hb0
                  exact hempty r hr (by omega)
          · rw [if_neg heeue] at h
            obtain rfl := Option.some.injEq .. ▸ h
            refine dropRun_inv s runs i0 sz hinv hr0m i0 (i0 + sz) s.usedEnd _
              (by omega) huele (fun r hr hne => (hinv.runs_wf r hr).2) ?_ ?_ ?_ ?_
            · intro r hr hne
              have hd := hdisj r hr hne
              have hw := hinv.runs_wf r hr
              have := hinv.ub_le r hr
              omega
            · intro h0
              rw [if_neg (by omega), if_neg (by omega)]
              exact hinv.ue_last h0
            · intro i hi
              rw [if_neg (by omega), if_neg (by omega)]
              exact hinv.below_fu i (by omega)
            · intro hn
              rw [if_neg (by omega), if_pos rfl]
        · rw [if_neg hub5] at h
          dsimp only at h
          by_cases heeue : i0 + sz = s.usedEnd
          · rw [if_pos heeue] at h
            have hubne : ¬ (s.usedBegin = s.usedEnd) := by omega
            rw [if_neg hubne, if_pos rfl] at h
            obtain rfl := Option.some.injEq .. ▸ h
            have hrle : ∀ r ∈ runs, r.1 ≠ i0 → r.1 + r.2 ≤ i0 := by
              intro r hr hne
              have hd := hdisj r hr hne
              have hw := hinv.runs_wf r hr
              omega
            refine dropRun_inv s runs i0 sz hinv hr0m i0 s.usedBegin i0 _
              (le_refl i0) (by omega) hrle (fun r hr hne => hinv.ub_le r hr) ?_ ?_ ?_
            · intro h0
              rw [if_neg (by omega), if_neg (by omega)]
              exact hinv.below_fu (i0 - 1) (by omega)
            · intro i hi
              rw [if_neg (by omega), if_neg (by omega)]
              exact hinv.below_fu i (by omega)
            · intro hn
              rw [if_neg (by omega), if_pos rfl]
          · rw [if_neg heeue] at h
            obtain rfl := Option.some.injEq .. ▸ h
            refine dropRun_inv s runs i0 sz hinv hr0m i0 s.usedBegin s.usedEnd _
              (by omega) huele (fun r hr hne => (hinv.runs_wf r hr).2)
              (fun r hr hne => hinv.ub_le r hr) ?_ ?_ ?_
            · intro h0
              rw [if_neg (by omega), if_neg (by omega)]
              exact hinv.ue_last h0
            · intro i hi
              rw [if_neg (by omega), if_neg (by omega)]
              exact hinv.below_fu i (by omega)
            · intro hn
              rw [if_neg (by omega), if_pos rfl]
      · rw [if_neg hfu4] at h
        dsimp only at h
        by_cases hub5 : i0 = s.usedBegin
        · rw [if_pos hub5] at h
          dsimp only at h
          by_cases heeue : i0 + sz = s.usedEnd
          · rw [if_pos heeue, if_pos heeue] at h
            obtain rfl := Option.some.injEq .. ▸ h
            have hempty : ∀ r ∈ runs, r.1 ≠ i0 → False := by
              intro r hr hne
              have hd := hdisj r hr hne
              have hw := hinv.runs_wf r hr
              have := hinv.ub_le r hr
              omega
            refine dropRun_inv s runs i0 sz hinv hr0m 0 0 0 _ (le_refl 0)
              (Nat.zero_le _) (fun r hr hne => absurd (hempty r hr hne) not_false)
              (fun r hr hne => absurd (hempty r hr hne) not_false)
              (fun h0 => absurd h0 (lt_irrefl 0))
              (fun i hi => absurd hi (Nat.not_lt_zero i)) ?_
            intro hn
            by_cases hidx0 : i0 = 0
            · rw [if_neg (by omega), if_pos hidx0.symm]
            · rw [if_neg (by omega), if_neg (by omega)]
              cases hb0 : s.alloc 0 with
              | false => rfl
              | true =>
                  exfalso
                  obtain ⟨r, hr, hc1, hc2⟩ := (hinv.alloc_iff 0).mp hb0
                  exact hempty r hr (by omega)
          · rw [if_neg heeue] at h
            obtain rfl := Option.some.injEq .. ▸ h
            refine dropRun_inv s runs i0 sz hinv hr0m s.firstUnused (i0 + sz)
              s.usedEnd _ hfule huele (fun r hr hne => (hinv.runs_wf r hr).2) ?_ ?_ ?_ ?_
            · intro r hr hne
              have hd := hdisj r hr hne
              have hw := hinv.runs_wf r hr
              have := hinv.ub_le r hr
              omega
            · intro h0
              rw [if_neg (by omega), if_neg (by omega)]
              exact hinv.ue_last h0
            · intro i hi
              rw [if_neg (by omega), if_neg (by omega)]
              exact hinv.below_fu i hi
            · intro hn
              by_cases hfeq : s.firstUnused = i0
              · rw [if_neg (by omega), if_pos hfeq]
              · rw [if_neg (by omega), if_neg hfeq]
                exact hinv.fu_free hn
        · rw [if_neg hub5] at h
          dsimp only at h
          by_cases heeue : i0 + sz = s.usedEnd
          · rw [if_pos heeue] at h
            have hubne : ¬ (s.usedBegin = s.usedEnd) := by omega
            rw [if_neg hubne] at h
            have hrle : ∀ r ∈ runs, r.1 ≠ i0 → r.1 + r.2 ≤ i0 := by
              intro r hr hne
              have hd := hdisj r hr hne
              have hw := hinv.runs_wf r hr
              omega
            by_cases hfueq2 : s.firstUnused = i0
            · rw [if_pos hfueq2] at h
              obtain rfl := Option.some.injEq .. ▸ h
              refine dropRun_inv s runs i0 sz hinv hr0m i0 s.usedBegin i0 _
                (le_refl i0) (by omega) hrle (fun r hr hne => hinv.ub_le r hr) ?_ ?_ ?_
              · intro h0
                rw [if_neg (by omega), if_neg (by omega)]
                exact hinv.below_fu (i0 - 1) (by omega)
              · intro i hi
                rw [if_neg (by omega), if_neg (by omega)]
                exact hinv.below_fu i (by omega)
              · intro hn
                rw [if_neg (by omega), if_pos rfl]
            · rw [if_neg hfueq2] at h
              have hfult : s.firstUnused < i0 := by omega
              have hLspec := lastNodeAllocated_spec
                (fun j => if i0 + 1 ≤ j ∧ j < i0 + sz then false
                  else if j = i0 then false else s.alloc j) i0
              set L := lastNodeAllocated
                (fun j => if i0 + 1 ≤ j ∧ j < i0 + sz then false
                  else if j = i0 then false else s.alloc j) i0 with hLdef
              have halfu : s.firstUnused = 0 ∨
                  (0 < s.firstUnused ∧ (if i0 + 1 ≤ s.firstUnused - 1 ∧
                    s.firstUnused - 1 < i0 + sz then false
                    else if s.firstUnused - 1 = i0 then false
                    else s.alloc (s.firstUnused - 1)) = true) := by
                rcases Nat.eq_zero_or_pos s.firstUnused with h0 | h0
                · exact Or.inl h0
                · refine Or.inr ⟨h0, ?_⟩
                  rw [if_neg (by omega), if_neg (by omega)]
                  exact hinv.below_fu (s.firstUnused - 1) (by omega)
              have hfuL : s.firstUnused ≤ L := by
                rcases halfu with h0 | ⟨h0, hal⟩
                · omega
                · rcases hLspec with ⟨hL0, hfree⟩ | ⟨hLpos, hLle, hLal, hLfree⟩
                  · rw [hfree (s.firstUnused - 1) (by omega)] at hal
                    exact Bool.noConfusion hal
                  · by_contra hcon
                    push_neg at hcon
                    rw [hLfree (s.firstUnused - 1) (by omega) (by omega)] at hal
                    exact Bool.noConfusion hal
              rw [if_neg (by omega)] at h
              obtain rfl := Option.some.injEq .. ▸ h
              have hLle2 : L ≤ i0 + 1 := by
                rcases hLspec with ⟨hL0, _⟩ | ⟨_, hLle, _, _⟩ <;> omega
              refine dropRun_inv s runs i0 sz hinv hr0m s.firstUnused s.usedBegin L _
                hfuL (by omega) ?_ (fun r hr hne => hinv.ub_le r hr) ?_ ?_ ?_
              · intro r hr hne
                have hw := hinv.runs_wf r hr
                have hrl := hrle r hr hne
                have hcovr : (if i0 + 1 ≤ r.1 + r.2 - 1 ∧ r.1 + r.2 - 1 < i0 + sz
                    then false else if r.1 + r.2 - 1 = i0 then false
                    else s.alloc (r.1 + r.2 - 1)) = true := by
                  rw [if_neg (by omega), if_neg (by omega)]
                  exact (hinv.alloc_iff (r.1 + r.2 - 1)).mpr ⟨r, hr, by omega, by omega⟩
                rcases hLspec with ⟨hL0, hfree⟩ | ⟨hLpos, hLle, hLal, hLfree⟩
                · rw [hfree (r.1 + r.2 - 1) (by omega)] at hcovr
                  exact Bool.noConfusion hcovr
                · by_contra hcon
                  push_neg at hcon
                  rw [hLfree (r.1 + r.2 - 1) (by omega) (by omega)] at hcovr
                  exact Bool.noConfusion hcovr
              · intro h0
                rcases hLspec with ⟨hL0, _⟩ | ⟨hLpos, hLle, hLal, hLfree⟩
                · omega
                · exact hLal
              · intro i hi
                rw [if_neg (by omega), if_neg (by omega)]
                exact hinv.below_fu i (by omega)
              · intro hn
                rw [if_neg (by omega), if_neg (by omega)]
                exact hinv.fu_free hn
          · rw [if_neg heeue] at h
            obtain rfl := Option.some.injEq .. ▸ h
            refine dropRun_inv s runs i0 sz hinv hr0m s.firstUnused s.usedBegin
              s.usedEnd _ hfule huele (fun r hr hne => (hinv.runs_wf r hr).2)
              (fun r hr hne => hinv.ub_le r hr) ?_ ?_ ?_
            · intro h0
              rw [if_neg (by omega), if_neg (by omega)]
              exact hinv.ue_last h0
            · intro i hi
              rw [if_neg (by omega), if_neg (by omega)]
              exact hinv.below_fu i hi
            · intro hn
              by_cases hfeq : s.firstUnused = i0
              · rw [if_neg (by omega), if_pos hfeq]
              · rw [if_neg (by omega), if_neg hfeq]
                exact hinv.fu_free hn

/-- C9: Every slab bookkeeping operation preserves the slab invariant.
Starting from a non-single-array slab satisfying SlabInv (which states
FirstUnused ≤ UsedEnd ≤ numNodes, the allocation bitmask covers exactly the
live runs, and the start-of-run bit is set on exactly the nodes that begin a
live allocation): a successful allocateSingle yields a slab satisfying the
invariant with the one-node run (idx, 1) added; a successful
allocateMultiple with a positive size (its only call site, poolallocarray,
always passes at least 2) yields the invariant with the run (idx, size)
added; a successful freeElement at the start of a run removes exactly that
run; and a failing allocation leaves the slab unchanged. -/
theorem slab_ops_preserve_inv (s : PoolSlab) (runs : List Run)
    (hinv : SlabInv s runs) :
    (∀ idx s', allocateSingle s = (some idx, s') →
      SlabInv s' ((idx, 1) :: runs)) ∧
    (∀ size idx s', 0 < size → allocateMultiple s size = (some idx, s') →
      SlabInv s' ((idx, size) :: runs)) ∧
    (∀ idx s', freeElement s idx = some s' →
      SlabInv s' (removeRun runs idx)) ∧
    (∀ s', allocateSingle s = (none, s') → s' = s) ∧
    (∀ size s', allocateMultiple s size = (none, s') → s' = s) :=
  ⟨fun idx s' h => allocateSingle_preserves s runs idx s' hinv h,
   fun size idx s' hsz h => allocateMultiple_preserves s runs size idx s' hsz hinv h,
   fun idx s' h => freeElement_preserves s runs idx s' hinv h,
   fun s' h => allocateSingle_none s s' h,
   fun size s' h => allocateMultiple_none s s' size h⟩

/-- Witness for C9: the freshly created 4-node slab satisfies the invariant
with no live runs, and the preservation theorem applies to it. -/
theorem slab_ops_preserve_inv_witness :
    SlabInv (createSlab 4) [] ∧
    ((∀ idx s', allocateSingle (createSlab 4) = (some idx, s') →
      SlabInv s' ((idx, 1) :: [])) ∧
    (∀ size idx s', 0 < size →
      allocateMultiple (createSlab 4) size = (some idx, s') →
      SlabInv s' ((idx, size) :: [])) ∧
    (∀ idx s', freeElement (createSlab 4) idx = some s' →
      SlabInv s' (removeRun [] idx)) ∧
    (∀ s', allocateSingle (createSlab 4) = (none, s') → s' = createSlab 4) ∧
    (∀ size s', allocateMultiple (createSlab 4) size = (none, s') →
      s' = createSlab 4)) :=
  ⟨createSlab_inv 4, slab_ops_preserve_inv (createSlab 4) [] (createSlab_inv 4)⟩

end PoolRT
